import Mathlib

/-!
Verification development for the whatsupgemini Chrome extension's
authenticated cross-context protocol: the JWT-like token service
(`jwt-utils.js`, embedded in the repository README), the secret-less
structural validator (`page-jwt-utils.js`), and the in-page audio
extraction executor (`inject.js`).

JavaScript strings are modelled as `List Char`.  Platform builtins used
by the source (`JSON.stringify`/`JSON.parse`, `btoa`/`atob`,
`crypto.subtle` HMAC) are modelled by concrete executable Lean functions
(JSON, base64) or by an opaque capability parameter (the HMAC oracle),
since they are not code of this repository.
-/

set_option maxRecDepth 4000

namespace WUG

/-- JS strings, modelled as lists of characters. -/
abbrev Str := List Char

/-- Decimal digit test (character codes 48–57). -/
def isDigit (c : Char) : Bool := 48 ≤ c.toNat && c.toNat ≤ 57

/-- The decimal digit character for a value `n < 10`. -/
def digitChar (n : Nat) : Char := Char.ofNat (48 + n)

/-- Decimal rendering of a natural number, most significant digit first:
the integer case of the JS number-to-string conversion used by
`JSON.stringify`. -/
def natToStr (n : Nat) : Str :=
  if _h : n < 10 then [digitChar n]
  else natToStr (n / 10) ++ [digitChar (n % 10)]
decreasing_by exact Nat.div_lt_self (by omega) (by omega)

/-- Decimal rendering of an integer. -/
def intToStr (n : Int) : Str :=
  if n < 0 then '-' :: natToStr n.natAbs else natToStr n.natAbs

/-- Accumulate a digit string into the natural number it denotes. -/
def digitsToNat (ds : Str) : Nat :=
  ds.foldl (fun a c => 10 * a + (c.toNat - 48)) 0

/-- Split a string into its maximal leading run of decimal digits and
the remainder. -/
def splitDigits : Str → Str × Str
  | [] => ([], [])
  | c :: r =>
    if isDigit c then
      let p := splitDigits r
      (c :: p.1, p.2)
    else ([], c :: r)

/-- `true` when the string does not start with a decimal digit. -/
def headNotDig : Str → Bool
  | [] => true
  | c :: _ => !(isDigit c)

/-- A JSON integer numeral may not have a leading zero unless it is the
single digit `0`. -/
def numLitOk : Str → Bool
  | [] => false
  | [_] => true
  | c :: _ :: _ => c != '0'

theorem digitChar_toNat {n : Nat} (h : n < 10) : (digitChar n).toNat = 48 + n := by
  interval_cases n <;> decide

theorem digitChar_isDigit {n : Nat} (h : n < 10) : isDigit (digitChar n) = true := by
  interval_cases n <;> decide

theorem natToStr_ne_nil (n : Nat) : natToStr n ≠ [] := by
  unfold natToStr
  split
  · simp
  · simp

theorem natToStr_all_digits (n : Nat) : ∀ c ∈ natToStr n, isDigit c = true := by
  unfold natToStr
  split
  · intro c hc
    simp at hc
    subst hc
    exact digitChar_isDigit (by omega)
  · intro c hc
    rw [List.mem_append] at hc
    rcases hc with h | h
    · exact natToStr_all_digits (n / 10) c h
    · simp at h
      subst h
      exact digitChar_isDigit (by omega)
decreasing_by exact Nat.div_lt_self (by omega) (by omega)

theorem digitsToNat_append_digit (ds : Str) (c : Char) :
    digitsToNat (ds ++ [c]) = 10 * digitsToNat ds + (c.toNat - 48) := by
  simp [digitsToNat, List.foldl_append]

theorem digitsToNat_natToStr (n : Nat) : digitsToNat (natToStr n) = n := by
  unfold natToStr
  split
  · next h =>
    simp [digitsToNat, digitChar_toNat h]
  · next h =>
    rw [digitsToNat_append_digit, digitsToNat_natToStr (n / 10),
      digitChar_toNat (Nat.mod_lt n (by omega))]
    omega
decreasing_by exact Nat.div_lt_self (by omega) (by omega)

theorem natToStr_head_ne_zero (n : Nat) (hn : 1 ≤ n) :
    ∀ c, (natToStr n).head? = some c → c ≠ '0' := by
  unfold natToStr
  split
  · next h =>
    intro c hc
    simp at hc
    subst hc
    intro hd
    have h1 := digitChar_toNat (show n < 10 by omega)
    rw [hd] at h1
    have h2 : ('0').toNat = 48 := by decide
    omega
  · next h =>
    intro c hc
    rcases hnn : natToStr (n / 10) with _ | ⟨d, ds⟩
    · exact absurd hnn (natToStr_ne_nil (n / 10))
    · rw [hnn, List.cons_append, List.head?_cons] at hc
      have hcd : c = d := by simpa using hc.symm
      subst hcd
      exact natToStr_head_ne_zero (n / 10) (by omega) c (by rw [hnn]; rfl)
decreasing_by exact Nat.div_lt_self (by omega) (by omega)

theorem natToStr_numLitOk (n : Nat) : numLitOk (natToStr n) = true := by
  rcases hs : natToStr n with _ | ⟨c, tl⟩
  · exact absurd hs (natToStr_ne_nil n)
  · rcases tl with _ | ⟨d, tl'⟩
    · rfl
    · have hlen : n ≥ 10 := by
        by_contra hlt
        have : natToStr n = [digitChar n] := by
          unfold natToStr
          simp [show n < 10 by omega]
        rw [this] at hs
        simp at hs
      have hne : c ≠ '0' := by
        apply natToStr_head_ne_zero n (by omega)
        rw [hs]
        rfl
      simpa [numLitOk] using hne

theorem splitDigits_append (ds rest : Str)
    (hds : ∀ c ∈ ds, isDigit c = true) (hr : headNotDig rest = true) :
    splitDigits (ds ++ rest) = (ds, rest) := by
  induction ds with
  | nil =>
    cases rest with
    | nil => rfl
    | cons c r =>
      simp [headNotDig] at hr
      simp [splitDigits, hr]
  | cons c tl ih =>
    have hc : isDigit c = true := hds c (by simp)
    have htl : ∀ x ∈ tl, isDigit x = true := fun x hx => hds x (by simp [hx])
    simp [splitDigits, hc, ih htl]

/-! ## JSON values

A model of the JSON-safe JS values carried in token headers, payloads and
custom claims.  Arrays and objects are represented by mutual inductives so
that mutual structural recursion and induction are available. -/

mutual
inductive JVal : Type where
  | null : JVal
  | bool (b : Bool) : JVal
  | num (n : Int) : JVal
  | str (s : List Char) : JVal
  | arr (xs : JArr) : JVal
  | obj (fs : JObj) : JVal
deriving DecidableEq
inductive JArr : Type where
  | nil : JArr
  | cons (v : JVal) (tl : JArr) : JArr
deriving DecidableEq
inductive JObj : Type where
  | nil : JObj
  | cons (k : List Char) (v : JVal) (tl : JObj) : JObj
deriving DecidableEq
end

/-- The `⁠{` character (written by code to stay out of string literals). -/
def lbr : Char := Char.ofNat 123

/-- The `⁠}` character. -/
def rbr : Char := Char.ofNat 125

/-- Lower-case hexadecimal digit character for `n < 16`, as emitted by
`JSON.stringify` in `\u00XX` escapes. -/
def hexDigitChar (n : Nat) : Char :=
  if n < 10 then Char.ofNat (48 + n) else Char.ofNat (87 + n)

/-- `JSON.stringify` escaping of a single character inside a string
literal: `\"`, `\\`, the short control escapes, `\u00XX` for the other
control characters, and everything else verbatim. -/
def escChar (c : Char) : Str :=
  if c = '\"' then ['\\', '\"']
  else if c = '\\' then ['\\', '\\']
  else if c.toNat = 8 then ['\\', 'b']
  else if c.toNat = 9 then ['\\', 't']
  else if c.toNat = 10 then ['\\', 'n']
  else if c.toNat = 12 then ['\\', 'f']
  else if c.toNat = 13 then ['\\', 'r']
  else if c.toNat < 32 then
    ['\\', 'u', '0', '0', hexDigitChar (c.toNat / 16), hexDigitChar (c.toNat % 16)]
  else [c]

/-- Escape a whole string body. -/
def escape : Str → Str
  | [] => []
  | c :: r => escChar c ++ escape r

/-- Inverse of the single-character short escapes accepted by JSON. -/
def unescChar (c : Char) : Option Char :=
  if c = '\"' then some '\"'
  else if c = '\\' then some '\\'
  else if c = '/' then some '/'
  else if c = 'b' then some (Char.ofNat 8)
  else if c = 'f' then some (Char.ofNat 12)
  else if c = 'n' then some (Char.ofNat 10)
  else if c = 'r' then some (Char.ofNat 13)
  else if c = 't' then some (Char.ofNat 9)
  else none

/-- Hexadecimal digit value (both cases accepted, as in JSON `\uXXXX`). -/
def hexVal (c : Char) : Option Nat :=
  if 48 ≤ c.toNat ∧ c.toNat ≤ 57 then some (c.toNat - 48)
  else if 97 ≤ c.toNat ∧ c.toNat ≤ 102 then some (c.toNat - 87)
  else if 65 ≤ c.toNat ∧ c.toNat ≤ 70 then some (c.toNat - 55)
  else none

mutual
/-- Model of `JSON.stringify` on a JSON value.  Object keys are emitted in
insertion order (the behaviour of V8 for non-array-index keys; integer-like
key reordering is not modelled).  Numbers cover the integer numerals the
program produces. -/
def stringifyV : JVal → Str
  | .null => 'n' :: 'u' :: 'l' :: 'l' :: []
  | .bool true => 't' :: 'r' :: 'u' :: 'e' :: []
  | .bool false => 'f' :: 'a' :: 'l' :: 's' :: 'e' :: []
  | .num n => intToStr n
  | .str s => '\"' :: escape s ++ ['\"']
  | .arr xs => '[' :: stringifyA xs
  | .obj fs => lbr :: stringifyO fs

/-- Serialize array elements (after the opening bracket): first element
followed by the comma-separated rest, or the closing bracket alone. -/
def stringifyA : JArr → Str
  | .nil => [']']
  | .cons v tl => stringifyV v ++ stringifyARest tl

/-- Serialize the remaining array elements, each preceded by a comma. -/
def stringifyARest : JArr → Str
  | .nil => [']']
  | .cons v tl => ',' :: stringifyV v ++ stringifyARest tl

/-- Serialize object members (after the opening brace). -/
def stringifyO : JObj → Str
  | .nil => [rbr]
  | .cons k v tl => '\"' :: escape k ++ '\"' :: ':' :: stringifyV v ++ stringifyORest tl

/-- Serialize the remaining object members, each preceded by a comma. -/
def stringifyORest : JObj → Str
  | .nil => [rbr]
  | .cons k v tl => ',' :: '\"' :: escape k ++ '\"' :: ':' :: stringifyV v ++ stringifyORest tl
end

/-- JSON insignificant whitespace. -/
def isWs (c : Char) : Bool :=
  c.toNat = 32 || c.toNat = 9 || c.toNat = 10 || c.toNat = 13

/-- Drop leading JSON whitespace. -/
def skipWs : Str → Str
  | [] => []
  | c :: r => if isWs c then skipWs r else c :: r

/-- `true` when the string does not start with JSON whitespace. -/
def headNotWs : Str → Bool
  | [] => true
  | c :: _ => !(isWs c)

/-- Parse the body of a JSON string literal (the opening quote already
consumed), returning the unescaped content and the text after the closing
quote.  Raw control characters are accepted (a simplification of
`JSON.parse`, which rejects them; round-tripping is unaffected because
`stringifyV` escapes them). -/
def parseStrBody : Str → Option (Str × Str)
  | [] => none
  | c :: rest =>
    if c = '\"' then some ([], rest)
    else if c = '\\' then
      match rest with
      | [] => none
      | e :: rest2 =>
        if e = 'u' then
          match rest2 with
          | h1 :: h2 :: h3 :: h4 :: rest3 =>
            match hexVal h1, hexVal h2, hexVal h3, hexVal h4 with
            | some a, some b, some x, some d =>
              match parseStrBody rest3 with
              | some (s, r) => some (Char.ofNat (((a * 16 + b) * 16 + x) * 16 + d) :: s, r)
              | none => none
            | _, _, _, _ => none
          | _ => none
        else
          match unescChar e with
          | some u =>
            match parseStrBody rest2 with
            | some (s, r) => some (u :: s, r)
            | none => none
          | none => none
    else
      match parseStrBody rest with
      | some (s, r) => some (c :: s, r)
      | none => none

/-- Parse a JSON integer numeral (leading-zero rule enforced; fractional
and exponent forms are not modelled — the program never produces them). -/
def parseNum : Str → Option (JVal × Str)
  | '-' :: r =>
    let p := splitDigits r
    if p.1 = [] then none
    else if numLitOk p.1 then some (.num (-(digitsToNat p.1 : Int)), p.2) else none
  | s =>
    let p := splitDigits s
    if p.1 = [] then none
    else if numLitOk p.1 then some (.num (digitsToNat p.1 : Int), p.2) else none

mutual
/-- Fuel-indexed model of `JSON.parse` (value grammar).  Whitespace is
skipped, then the value is dispatched on its first character.  Every
recursive call decrements the fuel, so `2 * length + 2` fuel is always
enough (proved below for serialized values). -/
def parseVal : Nat → Str → Option (JVal × Str)
  | 0, _ => none
  | fuel + 1, s =>
    match skipWs s with
    | [] => none
    | c :: rest =>
      if c = '\"' then
        match parseStrBody rest with
        | some (content, r) => some (.str content, r)
        | none => none
      else if c = lbr then
        match parseObj fuel (skipWs rest) with
        | some (fs, r) => some (.obj fs, r)
        | none => none
      else if c = '[' then
        match parseArr fuel (skipWs rest) with
        | some (xs, r) => some (.arr xs, r)
        | none => none
      else if c = 'n' then
        match rest with
        | 'u' :: 'l' :: 'l' :: r => some (.null, r)
        | _ => none
      else if c = 't' then
        match rest with
        | 'r' :: 'u' :: 'e' :: r => some (.bool true, r)
        | _ => none
      else if c = 'f' then
        match rest with
        | 'a' :: 'l' :: 's' :: 'e' :: r => some (.bool false, r)
        | _ => none
      else if c = '-' || isDigit c then parseNum (c :: rest)
      else none

/-- Parse array elements; the opening bracket is consumed and whitespace
skipped by the caller. -/
def parseArr : Nat → Str → Option (JArr × Str)
  | 0, _ => none
  | fuel + 1, s =>
    if s.head? = some ']' then some (.nil, s.tail)
    else
      match parseVal fuel s with
      | some (v, r) =>
        match parseArrRest fuel r with
        | some (tl, r2) => some (.cons v tl, r2)
        | none => none
      | none => none

/-- Parse the `, value`* `]` tail of an array. -/
def parseArrRest : Nat → Str → Option (JArr × Str)
  | 0, _ => none
  | fuel + 1, s =>
    match skipWs s with
    | ']' :: r => some (.nil, r)
    | ',' :: r =>
      match parseVal fuel r with
      | some (v, r2) =>
        match parseArrRest fuel r2 with
        | some (tl, r3) => some (.cons v tl, r3)
        | none => none
      | none => none
    | _ => none

/-- Parse object members; the opening brace is consumed and whitespace
skipped by the caller. -/
def parseObj : Nat → Str → Option (JObj × Str)
  | 0, _ => none
  | fuel + 1, s =>
    match s with
    | [] => none
    | c :: rest =>
      if c = rbr then some (.nil, rest)
      else if c = '\"' then
        match parseStrBody rest with
        | some (k, r1) =>
          match skipWs r1 with
          | ':' :: r2 =>
            match parseVal fuel r2 with
            | some (v, r3) =>
              match parseObjRest fuel r3 with
              | some (tl, r4) => some (.cons k v tl, r4)
              | none => none
            | none => none
          | _ => none
        | none => none
      else none

/-- Parse the `, "key": value`* `⁠}` tail of an object. -/
def parseObjRest : Nat → Str → Option (JObj × Str)
  | 0, _ => none
  | fuel + 1, s =>
    match skipWs s with
    | c :: rest =>
      if c = rbr then some (.nil, rest)
      else if c = ',' then
        match skipWs rest with
        | '\"' :: r0 =>
          match parseStrBody r0 with
          | some (k, r1) =>
            match skipWs r1 with
            | ':' :: r2 =>
              match parseVal fuel r2 with
              | some (v, r3) =>
                match parseObjRest fuel r3 with
                | some (tl, r4) => some (.cons k v tl, r4)
                | none => none
              | none => none
            | _ => none
          | none => none
        | _ => none
      else none
    | [] => none
end

mutual
/-- Parser fuel requirement of a value. -/
def sizeV : JVal → Nat
  | .null | .bool _ | .num _ | .str _ => 1
  | .arr xs => 1 + sizeA xs
  | .obj fs => 1 + sizeO fs
/-- Parser fuel requirement of an element list. -/
def sizeA : JArr → Nat
  | .nil => 1
  | .cons v tl => 1 + sizeV v + sizeA tl
/-- Parser fuel requirement of a member list. -/
def sizeO : JObj → Nat
  | .nil => 1
  | .cons _ v tl => 1 + sizeV v + sizeO tl
end

/-- Model of `JSON.stringify`. -/
def jsonStringify (v : JVal) : Str := stringifyV v

/-- Model of `JSON.parse`: run the fueled value parser with ample fuel and
require that only trailing whitespace remains. -/
def jsonParse (s : Str) : Option JVal :=
  match parseVal (2 * s.length + 2) s with
  | some (v, rest) => if skipWs rest = [] then some v else none
  | none => none

/-! ## Serializer/parser round-trip -/

theorem charToNat_ofNat {m : Nat} (h : m < 55296) : (Char.ofNat m).toNat = m := by
  unfold Char.ofNat
  split
  · rfl
  · next hn => exact absurd (Or.inl h) hn

theorem hexVal_hexDigitChar {m : Nat} (h : m < 16) : hexVal (hexDigitChar m) = some m := by
  interval_cases m <;> decide

theorem skipWs_cons {c : Char} {s : Str} (h : isWs c = false) : skipWs (c :: s) = c :: s := by
  simp [skipWs, h]

theorem parseStrBody_escape (s : Str) :
    ∀ rest, parseStrBody (escape s ++ '\"' :: rest) = some (s, rest) := by
  induction s with
  | nil =>
    intro rest
    unfold parseStrBody
    simp [escape]
  | cons c s' ih =>
    intro rest
    show parseStrBody ((escChar c ++ escape s') ++ '\"' :: rest) = _
    rw [List.append_assoc, parseStrBody.eq_def]
    by_cases h1 : c = '\"'
    · subst h1
      simp [escChar, unescChar, ih]
    · by_cases h2 : c = '\\'
      · subst h2
        simp [escChar, unescChar, ih]
      · by_cases h3 : c.toNat = 8
        · have hc : c = Char.ofNat 8 := by rw [← h3, Char.ofNat_toNat]
          simp [escChar, h1, h2, h3, unescChar, ih, hc]
        · by_cases h4 : c.toNat = 9
          · have hc : c = Char.ofNat 9 := by rw [← h4, Char.ofNat_toNat]
            simp [escChar, h1, h2, h3, h4, unescChar, ih, hc]
          · by_cases h5 : c.toNat = 10
            · have hc : c = Char.ofNat 10 := by rw [← h5, Char.ofNat_toNat]
              simp [escChar, h1, h2, h3, h4, h5, unescChar, ih, hc]
            · by_cases h6 : c.toNat = 12
              · have hc : c = Char.ofNat 12 := by rw [← h6, Char.ofNat_toNat]
                simp [escChar, h1, h2, h3, h4, h5, h6, unescChar, ih, hc]
              · by_cases h7 : c.toNat = 13
                · have hc : c = Char.ofNat 13 := by rw [← h7, Char.ofNat_toNat]
                  simp [escChar, h1, h2, h3, h4, h5, h6, h7, unescChar, ih, hc]
                · by_cases h8 : c.toNat < 32
                  · have hd1 : c.toNat / 16 < 16 := by omega
                    have hd2 : c.toNat % 16 < 16 := by omega
                    have hc : Char.ofNat (c.toNat / 16 * 16 + c.toNat % 16) = c := by
                      have heq : c.toNat / 16 * 16 + c.toNat % 16 = c.toNat := by
                        omega
                      rw [heq, Char.ofNat_toNat]
                    simp [escChar, h1, h2, h3, h4, h5, h6, h7, h8,
                      hexVal_hexDigitChar hd1, hexVal_hexDigitChar hd2,
                      ih, hc, show hexVal '0' = some 0 from rfl]
                  · simp [escChar, h1, h2, h3, h4, h5, h6, h7, h8, ih]

theorem dash_toNat : ('-').toNat = 45 := rfl

theorem parseNum_natToStr (m : Nat) (rest : Str) (hr : headNotDig rest = true) :
    parseNum (natToStr m ++ rest) = some (.num (m : Int), rest) := by
  have hsplit := splitDigits_append (natToStr m) rest (natToStr_all_digits m) hr
  rcases hs : natToStr m with _ | ⟨c, tl⟩
  · exact absurd hs (natToStr_ne_nil m)
  · have hc : isDigit c = true := natToStr_all_digits m c (by rw [hs]; simp)
    have hcd : c ≠ '-' := by
      intro h
      rw [h] at hc
      simp [isDigit] at hc
    rw [hs, List.cons_append] at hsplit
    rw [List.cons_append]
    unfold parseNum
    split
    · next r heq =>
      simp only [List.cons.injEq] at heq
      exact absurd heq.1 hcd
    · next _ =>
      rw [hsplit]
      have hok : numLitOk (c :: tl) = true := by rw [← hs]; exact natToStr_numLitOk m
      have hval : digitsToNat (c :: tl) = m := by rw [← hs]; exact digitsToNat_natToStr m
      simp [hok, hval]

theorem parseNum_neg (m : Nat) (rest : Str) (hr : headNotDig rest = true) :
    parseNum ('-' :: (natToStr m ++ rest)) = some (.num (-(m : Int)), rest) := by
  have hsplit := splitDigits_append (natToStr m) rest (natToStr_all_digits m) hr
  have hok : numLitOk (natToStr m) = true := natToStr_numLitOk m
  have hne : natToStr m ≠ [] := natToStr_ne_nil m
  simp [parseNum, hsplit, hne, hok, digitsToNat_natToStr m]

theorem parseVal_digit (fuel : Nat) (c : Char) (tl : Str)
    (hc : isDigit c = true ∨ c = '-') :
    parseVal (fuel + 1) (c :: tl) = parseNum (c :: tl) := by
  have hnat : c.toNat = 45 ∨ (48 ≤ c.toNat ∧ c.toNat ≤ 57) := by
    rcases hc with h | h
    · right; simpa [isDigit] using h
    · left; rw [h]; rfl
  have hne : ∀ d : Char, d.toNat ≠ c.toNat → c ≠ d := by
    intro d hd h
    rw [h] at hd
    exact hd rfl
  have hws : isWs c = false := by
    simp only [isWs]
    simp only [Bool.or_eq_false_iff, decide_eq_false_iff_not]
    omega
  have hcond : (c = '-' || isDigit c) = true := by
    rcases hc with h | h
    · simp [h]
    · simp [h]
  simp only [parseVal, skipWs_cons hws]
  rw [if_neg (hne '\"' (by have hv : ('\"').toNat = 34 := rfl; omega)),
    if_neg (hne lbr (by have hv : lbr.toNat = 123 := rfl; omega)),
    if_neg (hne '[' (by have hv : ('[').toNat = 91 := rfl; omega)),
    if_neg (hne 'n' (by have hv : ('n').toNat = 110 := rfl; omega)),
    if_neg (hne 't' (by have hv : ('t').toNat = 116 := rfl; omega)),
    if_neg (hne 'f' (by have hv : ('f').toNat = 102 := rfl; omega)),
    if_pos hcond]

theorem sizeV_pos (v : JVal) : 1 ≤ sizeV v := by
  cases v <;> simp [sizeV]

theorem sizeA_pos (xs : JArr) : 1 ≤ sizeA xs := by
  cases xs
  · simp [sizeA]
  · simp [sizeA]
    omega

theorem sizeO_pos (fs : JObj) : 1 ≤ sizeO fs := by
  cases fs
  · simp [sizeO]
  · simp [sizeO]
    omega

theorem stringifyV_head (v : JVal) :
    ∃ c t, stringifyV v = c :: t ∧ isWs c = false ∧ c ≠ ']' ∧ c ≠ rbr := by
  cases v with
  | null => exact ⟨'n', _, rfl, by decide, by decide, by decide⟩
  | bool b =>
    cases b
    · exact ⟨'f', _, rfl, by decide, by decide, by decide⟩
    · exact ⟨'t', _, rfl, by decide, by decide, by decide⟩
  | num n =>
    show ∃ c t, intToStr n = c :: t ∧ _
    unfold intToStr
    by_cases hn : n < 0
    · rw [if_pos hn]
      exact ⟨'-', _, rfl, by decide, by decide, by decide⟩
    · rw [if_neg hn]
      rcases hs : natToStr n.natAbs with _ | ⟨c, tl⟩
      · exact absurd hs (natToStr_ne_nil _)
      · have hc : isDigit c = true := natToStr_all_digits _ c (by rw [hs]; simp)
        have hb : 48 ≤ c.toNat ∧ c.toNat ≤ 57 := by simpa [isDigit] using hc
        refine ⟨c, tl, rfl, ?_, ?_, ?_⟩
        · simp only [isWs, Bool.or_eq_false_iff, decide_eq_false_iff_not]
          omega
        · intro h
          have : (']').toNat = 93 := rfl
          rw [h] at hb
          omega
        · intro h
          have : rbr.toNat = 125 := rfl
          rw [h] at hb
          omega
  | str s => exact ⟨'\"', _, rfl, by decide, by decide, by decide⟩
  | arr xs => exact ⟨'[', _, rfl, by decide, by decide, by decide⟩
  | obj fs => exact ⟨lbr, _, rfl, by decide, by decide, by decide⟩

theorem skipWs_stringifyV (v : JVal) (r : Str) :
    skipWs (stringifyV v ++ r) = stringifyV v ++ r := by
  obtain ⟨c, t, hv, hws, -, -⟩ := stringifyV_head v
  rw [hv, List.cons_append, skipWs_cons hws]

theorem skipWs_stringifyA (xs : JArr) (r : Str) :
    skipWs (stringifyA xs ++ r) = stringifyA xs ++ r := by
  cases xs with
  | nil => exact skipWs_cons (by decide)
  | cons v tl =>
    show skipWs ((stringifyV v ++ stringifyARest tl) ++ r) =
      (stringifyV v ++ stringifyARest tl) ++ r
    rw [List.append_assoc, skipWs_stringifyV]

theorem skipWs_stringifyO (fs : JObj) (r : Str) :
    skipWs (stringifyO fs ++ r) = stringifyO fs ++ r := by
  cases fs with
  | nil => exact skipWs_cons (by decide)
  | cons k v tl => exact skipWs_cons (by decide)

theorem headNotDig_ARest (tl : JArr) (r : Str) :
    headNotDig (stringifyARest tl ++ r) = true := by
  cases tl <;> rfl

theorem headNotDig_ORest (tl : JObj) (r : Str) :
    headNotDig (stringifyORest tl ++ r) = true := by
  cases tl <;> rfl

mutual
theorem rtV (v : JVal) (fuel : Nat) (rest : Str) (hf : sizeV v ≤ fuel)
    (hr : headNotDig rest = true) :
    parseVal fuel (stringifyV v ++ rest) = some (v, rest) := by
  cases fuel with
  | zero => exact absurd hf (by have := sizeV_pos v; omega)
  | succ k =>
    cases v with
    | null => rfl
    | bool b => cases b <;> rfl
    | num n =>
      show parseVal (k + 1) (intToStr n ++ rest) = some (.num n, rest)
      unfold intToStr
      by_cases hn : n < 0
      · rw [if_pos hn, List.cons_append,
          parseVal_digit k '-' _ (Or.inr rfl), parseNum_neg _ _ hr]
        have hcast : -((n.natAbs : Nat) : Int) = n := by omega
        rw [hcast]
      · rw [if_neg hn]
        rcases hs : natToStr n.natAbs with _ | ⟨c, tl⟩
        · exact absurd hs (natToStr_ne_nil _)
        · have hc : isDigit c = true := natToStr_all_digits _ c (by rw [hs]; simp)
          rw [List.cons_append, parseVal_digit k c _ (Or.inl hc), ← List.cons_append, ← hs,
            parseNum_natToStr _ _ hr]
          have hcast : ((n.natAbs : Nat) : Int) = n := by omega
          rw [hcast]
    | str s =>
      show parseVal (k + 1) (('\"' :: escape s ++ ['\"']) ++ rest) = some (.str s, rest)
      simp only [List.cons_append, List.append_assoc, List.singleton_append]
      show (match parseStrBody (escape s ++ '\"' :: rest) with
            | some (content, r) => some (JVal.str content, r)
            | none => none) = some (.str s, rest)
      rw [parseStrBody_escape]
    | arr xs =>
      show parseVal (k + 1) (('[' :: stringifyA xs) ++ rest) = some (.arr xs, rest)
      rw [List.cons_append]
      show (match parseArr k (skipWs (stringifyA xs ++ rest)) with
            | some (ys, r) => some (JVal.arr ys, r)
            | none => none) = some (.arr xs, rest)
      have hb : sizeA xs ≤ k := by
        have : sizeV (.arr xs) = 1 + sizeA xs := rfl
        omega
      rw [skipWs_stringifyA]
      simp only [rtA xs k rest hb]
    | obj fs =>
      show parseVal (k + 1) ((lbr :: stringifyO fs) ++ rest) = some (.obj fs, rest)
      rw [List.cons_append]
      show (match parseObj k (skipWs (stringifyO fs ++ rest)) with
            | some (gs, r) => some (JVal.obj gs, r)
            | none => none) = some (.obj fs, rest)
      have hb : sizeO fs ≤ k := by
        have : sizeV (.obj fs) = 1 + sizeO fs := rfl
        omega
      rw [skipWs_stringifyO]
      simp only [rtO fs k rest hb]

theorem rtA (xs : JArr) (fuel : Nat) (rest : Str) (hf : sizeA xs ≤ fuel) :
    parseArr fuel (stringifyA xs ++ rest) = some (xs, rest) := by
  cases fuel with
  | zero => exact absurd hf (by have := sizeA_pos xs; omega)
  | succ k =>
    cases xs with
    | nil => rfl
    | cons v tl =>
      show parseArr (k + 1) ((stringifyV v ++ stringifyARest tl) ++ rest) = _
      rw [List.append_assoc]
      obtain ⟨c, t, hv, hws, hbr, hrbr⟩ := stringifyV_head v
      have hb : sizeV v ≤ k ∧ sizeA tl ≤ k := by
        have : sizeA (.cons v tl) = 1 + sizeV v + sizeA tl := rfl
        omega
      rw [hv, List.cons_append]
      show (if (c :: (t ++ (stringifyARest tl ++ rest))).head? = some ']'
            then some (JArr.nil, (c :: (t ++ (stringifyARest tl ++ rest))).tail)
            else match parseVal k (c :: (t ++ (stringifyARest tl ++ rest))) with
              | some (v, r) =>
                match parseArrRest k r with
                | some (tl2, r2) => some (JArr.cons v tl2, r2)
                | none => none
              | none => none) = _
      rw [if_neg (by simp [hbr])]
      rw [← List.cons_append, ← hv]
      simp only [rtV v k _ hb.1 (headNotDig_ARest tl rest), rtAR tl k rest hb.2]

theorem rtAR (tl : JArr) (fuel : Nat) (rest : Str) (hf : sizeA tl ≤ fuel) :
    parseArrRest fuel (stringifyARest tl ++ rest) = some (tl, rest) := by
  cases fuel with
  | zero => exact absurd hf (by have := sizeA_pos tl; omega)
  | succ k =>
    cases tl with
    | nil => rfl
    | cons v tl' =>
      show parseArrRest (k + 1) ((',' :: stringifyV v ++ stringifyARest tl') ++ rest) =
        some (JArr.cons v tl', rest)
      simp only [List.cons_append, List.append_assoc]
      have hb : sizeV v ≤ k ∧ sizeA tl' ≤ k := by
        have : sizeA (.cons v tl') = 1 + sizeV v + sizeA tl' := rfl
        omega
      show (match parseVal k (stringifyV v ++ (stringifyARest tl' ++ rest)) with
            | some (w, r2) =>
              match parseArrRest k r2 with
              | some (ys, r3) => some (JArr.cons w ys, r3)
              | none => none
            | none => none) = _
      simp only [rtV v k _ hb.1 (headNotDig_ARest tl' rest), rtAR tl' k rest hb.2]

theorem rtO (fs : JObj) (fuel : Nat) (rest : Str) (hf : sizeO fs ≤ fuel) :
    parseObj fuel (stringifyO fs ++ rest) = some (fs, rest) := by
  cases fuel with
  | zero => exact absurd hf (by have := sizeO_pos fs; omega)
  | succ k =>
    cases fs with
    | nil => rfl
    | cons key v tl =>
      show parseObj (k + 1)
        (('\"' :: (escape key ++ '\"' :: ':' :: stringifyV v ++ stringifyORest tl)) ++ rest) =
        some (JObj.cons key v tl, rest)
      simp only [List.cons_append, List.append_assoc]
      have hb : sizeV v ≤ k ∧ sizeO tl ≤ k := by
        have : sizeO (.cons key v tl) = 1 + sizeV v + sizeO tl := rfl
        omega
      show (match parseStrBody
              (escape key ++ '\"' :: ':' :: (stringifyV v ++ (stringifyORest tl ++ rest))) with
            | some (kk, r1) =>
              match skipWs r1 with
              | ':' :: r2 =>
                match parseVal k r2 with
                | some (w, r3) =>
                  match parseObjRest k r3 with
                  | some (ys, r4) => some (JObj.cons kk w ys, r4)
                  | none => none
                | none => none
              | _ => none
            | none => none) = some (JObj.cons key v tl, rest)
      rw [parseStrBody_escape]
      show (match skipWs (':' :: (stringifyV v ++ (stringifyORest tl ++ rest))) with
            | ':' :: r2 =>
              match parseVal k r2 with
              | some (w, r3) =>
                match parseObjRest k r3 with
                | some (ys, r4) => some (JObj.cons key w ys, r4)
                | none => none
              | none => none
            | _ => none) = some (JObj.cons key v tl, rest)
      rw [skipWs_cons (by decide)]
      show (match parseVal k (stringifyV v ++ (stringifyORest tl ++ rest)) with
            | some (w, r3) =>
              match parseObjRest k r3 with
              | some (ys, r4) => some (JObj.cons key w ys, r4)
              | none => none
            | none => none) = some (JObj.cons key v tl, rest)
      simp only [rtV v k _ hb.1 (headNotDig_ORest tl rest), rtOR tl k rest hb.2]

theorem rtOR (tl : JObj) (fuel : Nat) (rest : Str) (hf : sizeO tl ≤ fuel) :
    parseObjRest fuel (stringifyORest tl ++ rest) = some (tl, rest) := by
  cases fuel with
  | zero => exact absurd hf (by have := sizeO_pos tl; omega)
  | succ k =>
    cases tl with
    | nil => rfl
    | cons key v tl' =>
      show parseObjRest (k + 1)
        ((',' :: '\"' :: (escape key ++ '\"' :: ':' :: stringifyV v ++ stringifyORest tl')) ++ rest) =
        some (JObj.cons key v tl', rest)
      simp only [List.cons_append, List.append_assoc]
      have hb : sizeV v ≤ k ∧ sizeO tl' ≤ k := by
        have : sizeO (.cons key v tl') = 1 + sizeV v + sizeO tl' := rfl
        omega
      show (match parseStrBody
              (escape key ++ '\"' :: ':' :: (stringifyV v ++ (stringifyORest tl' ++ rest))) with
            | some (kk, r1) =>
              match skipWs r1 with
              | ':' :: r2 =>
                match parseVal k r2 with
                | some (w, r3) =>
                  match parseObjRest k r3 with
                  | some (ys, r4) => some (JObj.cons kk w ys, r4)
                  | none => none
                | none => none
              | _ => none
            | none => none) = some (JObj.cons key v tl', rest)
      rw [parseStrBody_escape]
      show (match skipWs (':' :: (stringifyV v ++ (stringifyORest tl' ++ rest))) with
            | ':' :: r2 =>
              match parseVal k r2 with
              | some (w, r3) =>
                match parseObjRest k r3 with
                | some (ys, r4) => some (JObj.cons key w ys, r4)
                | none => none
              | none => none
            | _ => none) = some (JObj.cons key v tl', rest)
      rw [skipWs_cons (by decide)]
      show (match parseVal k (stringifyV v ++ (stringifyORest tl' ++ rest)) with
            | some (w, r3) =>
              match parseObjRest k r3 with
              | some (ys, r4) => some (JObj.cons key w ys, r4)
              | none => none
            | none => none) = some (JObj.cons key v tl', rest)
      simp only [rtV v k _ hb.1 (headNotDig_ORest tl' rest), rtOR tl' k rest hb.2]
end

theorem stringifyO_cons (key : Str) (v : JVal) (tl : JObj) :
    stringifyO (.cons key v tl) =
      '\"' :: (escape key ++ '\"' :: ':' :: (stringifyV v ++ stringifyORest tl)) := by
  show (('\"' :: escape key) ++ ('\"' :: ':' :: stringifyV v)) ++ stringifyORest tl = _
  simp

theorem stringifyORest_cons (key : Str) (v : JVal) (tl : JObj) :
    stringifyORest (.cons key v tl) =
      ',' :: '\"' :: (escape key ++ '\"' :: ':' :: (stringifyV v ++ stringifyORest tl)) := by
  show ((',' :: '\"' :: escape key) ++ ('\"' :: ':' :: stringifyV v)) ++ stringifyORest tl = _
  simp

theorem stringifyV_length_pos (v : JVal) : 1 ≤ (stringifyV v).length := by
  obtain ⟨c, t, hv, -, -, -⟩ := stringifyV_head v
  rw [hv]
  simp

mutual
theorem sizeV_le_len (v : JVal) : sizeV v + 1 ≤ 2 * (stringifyV v).length := by
  cases v with
  | null => decide
  | bool b => cases b <;> decide
  | num n =>
    have := stringifyV_length_pos (.num n)
    have hs : sizeV (.num n) = 1 := rfl
    omega
  | str s =>
    have := stringifyV_length_pos (.str s)
    have hs : sizeV (.str s) = 1 := rfl
    omega
  | arr xs =>
    have h := sizeA_le_len xs
    have h1 : sizeV (.arr xs) = 1 + sizeA xs := rfl
    have h2 : (stringifyV (.arr xs)).length = 1 + (stringifyA xs).length := by
      show ('[' :: stringifyA xs).length = 1 + (stringifyA xs).length
      rw [List.length_cons]
      omega
    omega
  | obj fs =>
    have h := sizeO_le_len fs
    have h1 : sizeV (.obj fs) = 1 + sizeO fs := rfl
    have h2 : (stringifyV (.obj fs)).length = 1 + (stringifyO fs).length := by
      show (lbr :: stringifyO fs).length = 1 + (stringifyO fs).length
      rw [List.length_cons]
      omega
    omega

theorem sizeA_le_len (xs : JArr) : sizeA xs ≤ 2 * (stringifyA xs).length := by
  cases xs with
  | nil => decide
  | cons v tl =>
    have h1 := sizeV_le_len v
    have h2 := sizeAR_le_len tl
    have h3 : sizeA (.cons v tl) = 1 + sizeV v + sizeA tl := rfl
    have h4 : (stringifyA (.cons v tl)).length =
        (stringifyV v).length + (stringifyARest tl).length := by
      show (stringifyV v ++ stringifyARest tl).length =
        (stringifyV v).length + (stringifyARest tl).length
      rw [List.length_append]
    omega

theorem sizeAR_le_len (tl : JArr) : sizeA tl ≤ 2 * (stringifyARest tl).length := by
  cases tl with
  | nil => decide
  | cons v tl' =>
    have h1 := sizeV_le_len v
    have h2 := sizeAR_le_len tl'
    have h3 : sizeA (.cons v tl') = 1 + sizeV v + sizeA tl' := rfl
    have h4 : (stringifyARest (.cons v tl')).length =
        1 + (stringifyV v).length + (stringifyARest tl').length := by
      show (',' :: (stringifyV v ++ stringifyARest tl')).length =
        1 + (stringifyV v).length + (stringifyARest tl').length
      rw [List.length_cons, List.length_append]
      omega
    omega

theorem sizeO_le_len (fs : JObj) : sizeO fs ≤ 2 * (stringifyO fs).length := by
  cases fs with
  | nil => decide
  | cons key v tl =>
    have h1 := sizeV_le_len v
    have h2 := sizeOR_le_len tl
    have h3 : sizeO (.cons key v tl) = 1 + sizeV v + sizeO tl := rfl
    have h4 : (stringifyO (.cons key v tl)).length =
        3 + (escape key).length + (stringifyV v).length + (stringifyORest tl).length := by
      rw [stringifyO_cons]
      simp only [List.length_cons, List.length_append]
      omega
    omega

theorem sizeOR_le_len (tl : JObj) : sizeO tl ≤ 2 * (stringifyORest tl).length := by
  cases tl with
  | nil => decide
  | cons key v tl' =>
    have h1 := sizeV_le_len v
    have h2 := sizeOR_le_len tl'
    have h3 : sizeO (.cons key v tl') = 1 + sizeV v + sizeO tl' := rfl
    have h4 : (stringifyORest (.cons key v tl')).length =
        4 + (escape key).length + (stringifyV v).length + (stringifyORest tl').length := by
      rw [stringifyORest_cons]
      simp only [List.length_cons, List.length_append]
      omega
    omega
end

/-- `JSON.parse` inverts `JSON.stringify` on every JSON value. -/
theorem jsonParse_stringify (v : JVal) : jsonParse (jsonStringify v) = some v := by
  unfold jsonParse jsonStringify
  have h1 : sizeV v ≤ 2 * (stringifyV v).length + 2 := by
    have := sizeV_le_len v
    omega
  have h2 := rtV v (2 * (stringifyV v).length + 2) [] h1 rfl
  rw [List.append_nil] at h2
  rw [h2]
  rfl

/-! ## JS object semantics (property lookup, assignment, spread) -/

/-- First-match lookup of a key: JS property access on objects built from
object literals and JSON (keys are unique there, so first match is the
value). -/
def JObj.lookup : JObj → Str → Option JVal
  | .nil, _ => none
  | .cons k v tl, key => if k = key then some v else JObj.lookup tl key

/-- The keys of an object, in order. -/
def JObj.keys : JObj → List Str
  | .nil => []
  | .cons k _ tl => k :: JObj.keys tl

/-- The entries of an object, in order. -/
def JObj.entries : JObj → List (Str × JVal)
  | .nil => []
  | .cons k v tl => (k, v) :: JObj.entries tl

/-- JS property assignment `o[k] = v`: overwrite the first occurrence in
place, else append.  This is exactly how a later entry of an object
literal or spread merges into the accumulated object: the value wins but
the key keeps its original position. -/
def JObj.set : JObj → Str → JVal → JObj
  | .nil, key, v => .cons key v .nil
  | .cons k w tl, key, v =>
    if k = key then .cons k v tl else .cons k w (JObj.set tl key v)

/-- JS object spread `⁠{ ...base, ...extra }`: assign the entries of
`extra` into `base` in order. -/
def spread (base : JObj) : JObj → JObj
  | .nil => base
  | .cons k v tl => spread (base.set k v) tl

theorem lookup_set_self (o : JObj) (k : Str) (v : JVal) :
    (o.set k v).lookup k = some v := by
  cases o with
  | nil => simp [JObj.set, JObj.lookup]
  | cons k1 w tl =>
    by_cases h : k1 = k
    · simp [JObj.set, h, JObj.lookup]
    · simp [JObj.set, h, JObj.lookup, lookup_set_self tl k v]

theorem lookup_set_other (o : JObj) (k k' : Str) (v : JVal) (h : k' ≠ k) :
    (o.set k' v).lookup k = o.lookup k := by
  cases o with
  | nil => simp [JObj.set, JObj.lookup, h]
  | cons k1 w tl =>
    by_cases h1 : k1 = k'
    · subst h1
      simp [JObj.set, JObj.lookup, h]
    · simp [JObj.set, h1, JObj.lookup, lookup_set_other tl k k' v h]

theorem lookup_mem_keys (o : JObj) (k : Str) :
    (o.lookup k).isSome = true ↔ k ∈ o.keys := by
  cases o with
  | nil => simp [JObj.lookup, JObj.keys]
  | cons k1 v tl =>
    by_cases h : k1 = k
    · simp [JObj.lookup, JObj.keys, h]
    · have h' : ¬(k = k1) := fun he => h he.symm
      simp [JObj.lookup, JObj.keys, h, h', lookup_mem_keys tl k]

theorem spread_lookup_of_not_mem (extra : JObj) (base : JObj) (k : Str)
    (h : k ∉ extra.keys) :
    (spread base extra).lookup k = base.lookup k := by
  cases extra with
  | nil => rfl
  | cons k1 v tl =>
    have h1 : k1 ≠ k := by
      intro he
      exact h (by simp [JObj.keys, he])
    have h2 : k ∉ tl.keys := fun hm => h (by simp [JObj.keys, hm])
    show (spread (base.set k1 v) tl).lookup k = _
    rw [spread_lookup_of_not_mem tl (base.set k1 v) k h2,
      lookup_set_other base k k1 v h1]

theorem spread_lookup_of_mem (extra : JObj) (base : JObj) (k : Str) (v : JVal)
    (hnd : extra.keys.Nodup) (hm : (k, v) ∈ extra.entries) :
    (spread base extra).lookup k = some v := by
  cases extra with
  | nil => simp [JObj.entries] at hm
  | cons k1 v1 tl =>
    rw [show JObj.entries (.cons k1 v1 tl) = (k1, v1) :: tl.entries from rfl] at hm
    have hnd1 : k1 ∉ tl.keys ∧ tl.keys.Nodup := by
      rw [show JObj.keys (.cons k1 v1 tl) = k1 :: tl.keys from rfl] at hnd
      exact ⟨(List.nodup_cons.mp hnd).1, (List.nodup_cons.mp hnd).2⟩
    rcases List.mem_cons.mp hm with he | hm'
    · have hk : k = k1 ∧ v = v1 := by simpa using he
      obtain ⟨hk1, hv1⟩ := hk
      subst hk1
      subst hv1
      show (spread (base.set k v) tl).lookup k = some v
      rw [spread_lookup_of_not_mem tl _ k hnd1.1, lookup_set_self]
    · exact spread_lookup_of_mem tl (base.set k1 v1) k v hnd1.2 hm'

/-! ## base64: models of the `btoa` / `atob` platform builtins -/

/-- The base64 alphabet. -/
def b64Table : Str :=
  "ABCDEFGHIJKLMNOPQRSTUVWXYZabcdefghijklmnopqrstuvwxyz0123456789+/".data

/-- Character for a 6-bit group. -/
def b64Char (i : Nat) : Char := b64Table.getD i 'A'

/-- Index of an alphabet character, `none` for non-alphabet characters. -/
def b64Index (c : Char) : Option Nat :=
  if c ∈ b64Table then some (b64Table.indexOf c) else none

/-- Index with default 0 (used only after validity has been checked). -/
def ix (c : Char) : Nat := (b64Index c).getD 0

/-- Encode bytes in 3-byte groups, without padding. -/
def btoaCore : List Nat → Str
  | [] => []
  | [a] => [b64Char (a / 4), b64Char (a % 4 * 16)]
  | [a, b] => [b64Char (a / 4), b64Char (a % 4 * 16 + b / 16), b64Char (b % 16 * 4)]
  | a :: b :: c :: rest =>
    b64Char (a / 4) :: b64Char (a % 4 * 16 + b / 16) ::
    b64Char (b % 16 * 4 + c / 64) :: b64Char (c % 64) :: btoaCore rest

/-- Number of `=` padding characters for an input of `n` bytes. -/
def b64PadLen (n : Nat) : Nat := (3 - n % 3) % 3

/-- Model of `btoa`: fails (throws `InvalidCharacterError`) when a character
code exceeds 255, else emits padded base64. -/
def btoa (s : Str) : Option Str :=
  if s.all (fun c => c.toNat < 256) then
    some (btoaCore (s.map Char.toNat) ++ List.replicate (b64PadLen s.length) '=')
  else none

/-- ASCII whitespace stripped by forgiving-base64 decoding. -/
def isB64Ws (c : Char) : Bool :=
  c.toNat = 32 || c.toNat = 9 || c.toNat = 10 || c.toNat = 12 || c.toNat = 13

/-- Drop one trailing `=` if present. -/
def dropLastEq (s : Str) : Str :=
  match s.reverse with
  | '=' :: t => t.reverse
  | _ => s

/-- Decode 4-character groups to bytes, discarding leftover bits of a final
partial group (forgiving-base64). -/
def atobChunks : Str → Option (List Nat)
  | [] => some []
  | [_] => none
  | [c1, c2] => some [ix c1 * 4 + ix c2 / 16]
  | [c1, c2, c3] => some [ix c1 * 4 + ix c2 / 16, ix c2 % 16 * 16 + ix c3 / 4]
  | c1 :: c2 :: c3 :: c4 :: rest =>
    match atobChunks rest with
    | some bs =>
      some ((ix c1 * 4 + ix c2 / 16) :: (ix c2 % 16 * 16 + ix c3 / 4) ::
        (ix c3 % 4 * 64 + ix c4) :: bs)
    | none => none

/-- Forgiving-base64 preprocessing: strip ASCII whitespace, then remove up
to two trailing `=` when the length is a multiple of four. -/
def b64Strip (s : Str) : Str :=
  if (s.filter (fun c => !(isB64Ws c))).length % 4 = 0 then
    dropLastEq (dropLastEq (s.filter (fun c => !(isB64Ws c))))
  else s.filter (fun c => !(isB64Ws c))

/-- Model of `atob` (forgiving-base64 decode): after preprocessing, fail on
a leftover length of 1 mod 4 or any non-alphabet character, else decode. -/
def atob (s : Str) : Option Str :=
  if (b64Strip s).length % 4 = 1 then none
  else if (b64Strip s).all (fun c => (b64Index c).isSome) then
    match atobChunks (b64Strip s) with
    | some bs => some (bs.map Char.ofNat)
    | none => none
  else none

theorem ix_b64Char {i : Nat} (h : i < 64) : ix (b64Char i) = i := by
  have hall : ∀ j < 64, ix (b64Char j) = j := by decide
  exact hall i h

theorem b64Char_mem {i : Nat} (h : i < 64) : (b64Index (b64Char i)).isSome = true := by
  have hall : ∀ j < 64, (b64Index (b64Char j)).isSome = true := by decide
  exact hall i h

theorem b64Char_ne_eq {i : Nat} (h : i < 64) : b64Char i ≠ '=' := by
  have hall : ∀ j < 64, b64Char j ≠ '=' := by decide
  exact hall i h

theorem b64Char_not_ws {i : Nat} (h : i < 64) : isB64Ws (b64Char i) = false := by
  have hall : ∀ j < 64, isB64Ws (b64Char j) = false := by decide
  exact hall i h

/-- Every character of the padless encoding is an alphabet character for a
6-bit index. -/
theorem mem_btoaCore (bs : List Nat) (hb : ∀ b ∈ bs, b < 256) :
    ∀ c ∈ btoaCore bs, ∃ i, i < 64 ∧ c = b64Char i := by
  match bs with
  | [] => intro c hc; simp [btoaCore] at hc
  | [a] =>
    have ha : a < 256 := hb a (by simp)
    intro c hc
    simp [btoaCore] at hc
    rcases hc with h | h <;> subst h
    · exact ⟨a / 4, by omega, rfl⟩
    · exact ⟨a % 4 * 16, by omega, rfl⟩
  | [a, b] =>
    have ha : a < 256 := hb a (by simp)
    have hbb : b < 256 := hb b (by simp)
    intro c hc
    simp [btoaCore] at hc
    rcases hc with h | h | h <;> subst h
    · exact ⟨a / 4, by omega, rfl⟩
    · exact ⟨a % 4 * 16 + b / 16, by omega, rfl⟩
    · exact ⟨b % 16 * 4, by omega, rfl⟩
  | a :: b :: c0 :: rest =>
    have ha : a < 256 := hb a (by simp)
    have hbb : b < 256 := hb b (by simp)
    have hc0 : c0 < 256 := hb c0 (by simp)
    have hrest : ∀ x ∈ rest, x < 256 := fun x hx => hb x (by simp [hx])
    intro c hc
    rw [show btoaCore (a :: b :: c0 :: rest) =
      b64Char (a / 4) :: b64Char (a % 4 * 16 + b / 16) ::
      b64Char (b % 16 * 4 + c0 / 64) :: b64Char (c0 % 64) :: btoaCore rest from rfl] at hc
    simp only [List.mem_cons] at hc
    rcases hc with h | h | h | h | h
    · exact ⟨a / 4, by omega, h⟩
    · exact ⟨a % 4 * 16 + b / 16, by omega, h⟩
    · exact ⟨b % 16 * 4 + c0 / 64, by omega, h⟩
    · exact ⟨c0 % 64, by omega, h⟩
    · exact mem_btoaCore rest hrest c h

/-- Extra output length for a final partial group. -/
def b64ExtraLen : Nat → Nat
  | 0 => 0
  | 1 => 2
  | _ => 3

theorem btoaCore_length (bs : List Nat) :
    (btoaCore bs).length = bs.length / 3 * 4 + b64ExtraLen (bs.length % 3) := by
  match bs with
  | [] => rfl
  | [_] => simp [btoaCore, b64ExtraLen]
  | [_, _] => simp [btoaCore, b64ExtraLen]
  | a :: b :: c :: rest =>
    rw [show btoaCore (a :: b :: c :: rest) =
      b64Char (a / 4) :: b64Char (a % 4 * 16 + b / 16) ::
      b64Char (b % 16 * 4 + c / 64) :: b64Char (c % 64) :: btoaCore rest from rfl]
    simp only [List.length_cons]
    rw [btoaCore_length rest]
    have h1 : (rest.length + 3) / 3 = rest.length / 3 + 1 := by omega
    have h2 : (rest.length + 3) % 3 = rest.length % 3 := by omega
    rw [show rest.length + 1 + 1 + 1 = rest.length + 3 from by omega, h1, h2]
    omega

theorem atobChunks_btoaCore (bs : List Nat) (hb : ∀ b ∈ bs, b < 256) :
    atobChunks (btoaCore bs) = some bs := by
  match bs with
  | [] => rfl
  | [a] =>
    have ha : a < 256 := hb a (by simp)
    show atobChunks [b64Char (a / 4), b64Char (a % 4 * 16)] = some [a]
    rw [show atobChunks [b64Char (a / 4), b64Char (a % 4 * 16)] =
      some [ix (b64Char (a / 4)) * 4 + ix (b64Char (a % 4 * 16)) / 16] from rfl,
      ix_b64Char (by omega), ix_b64Char (by omega)]
    have e1 : a / 4 * 4 + a % 4 * 16 / 16 = a := by omega
    rw [e1]
  | [a, b] =>
    have ha : a < 256 := hb a (by simp)
    have hbb : b < 256 := hb b (by simp)
    show atobChunks [b64Char (a / 4), b64Char (a % 4 * 16 + b / 16),
      b64Char (b % 16 * 4)] = some [a, b]
    rw [show atobChunks [b64Char (a / 4), b64Char (a % 4 * 16 + b / 16),
        b64Char (b % 16 * 4)] =
      some [ix (b64Char (a / 4)) * 4 + ix (b64Char (a % 4 * 16 + b / 16)) / 16,
        ix (b64Char (a % 4 * 16 + b / 16)) % 16 * 16 + ix (b64Char (b % 16 * 4)) / 4] from rfl,
      ix_b64Char (by omega), ix_b64Char (by omega), ix_b64Char (by omega)]
    congr 1
    have e1 : a / 4 * 4 + (a % 4 * 16 + b / 16) / 16 = a := by omega
    have e2 : (a % 4 * 16 + b / 16) % 16 * 16 + b % 16 * 4 / 4 = b := by omega
    rw [e1, e2]
  | a :: b :: c :: rest =>
    have ha : a < 256 := hb a (by simp)
    have hbb : b < 256 := hb b (by simp)
    have hc : c < 256 := hb c (by simp)
    have hrest : ∀ x ∈ rest, x < 256 := fun x hx => hb x (by simp [hx])
    have hrec := atobChunks_btoaCore rest hrest
    rw [show btoaCore (a :: b :: c :: rest) =
      b64Char (a / 4) :: b64Char (a % 4 * 16 + b / 16) ::
      b64Char (b % 16 * 4 + c / 64) :: b64Char (c % 64) :: btoaCore rest from rfl]
    rw [show atobChunks (b64Char (a / 4) :: b64Char (a % 4 * 16 + b / 16) ::
        b64Char (b % 16 * 4 + c / 64) :: b64Char (c % 64) :: btoaCore rest) =
      (match atobChunks (btoaCore rest) with
       | some bs =>
         some ((ix (b64Char (a / 4)) * 4 + ix (b64Char (a % 4 * 16 + b / 16)) / 16) ::
           (ix (b64Char (a % 4 * 16 + b / 16)) % 16 * 16 +
             ix (b64Char (b % 16 * 4 + c / 64)) / 4) ::
           (ix (b64Char (b % 16 * 4 + c / 64)) % 4 * 64 + ix (b64Char (c % 64))) :: bs)
       | none => none) from rfl]
    rw [hrec, ix_b64Char (by omega), ix_b64Char (by omega), ix_b64Char (by omega),
      ix_b64Char (by omega)]
    have e1 : a / 4 * 4 + (a % 4 * 16 + b / 16) / 16 = a := by omega
    have e2 : (a % 4 * 16 + b / 16) % 16 * 16 + (b % 16 * 4 + c / 64) / 4 = b := by omega
    have e3 : (b % 16 * 4 + c / 64) % 4 * 64 + c % 64 = c := by omega
    rw [e1, e2, e3]

theorem dropLastEq_no_eq (x : Str) (hx : ∀ c ∈ x, c ≠ '=') : dropLastEq x = x := by
  unfold dropLastEq
  split
  · next t heq =>
    have : '=' ∈ x := by
      have h1 : '=' ∈ x.reverse := by rw [heq]; simp
      simpa using h1
    exact absurd rfl (hx '=' this)
  · rfl

theorem dropLastEq_append_eq (x : Str) : dropLastEq (x ++ ['=']) = x := by
  unfold dropLastEq
  split
  · next t heq =>
    rw [List.reverse_append] at heq
    simp at heq
    rw [← heq]
    simp
  · next hne =>
    exfalso
    exact hne (x.reverse) (by simp)

theorem b64Strip_btoa (s : Str) (hall' : ∀ c ∈ s, c.toNat < 256) :
    b64Strip (btoaCore (s.map Char.toNat) ++ List.replicate (b64PadLen s.length) '=')
      = btoaCore (s.map Char.toNat) := by
  have hbytes : ∀ b ∈ s.map Char.toNat, b < 256 := by
    intro b hbm
    rcases List.mem_map.mp hbm with ⟨c, hc, rfl⟩
    exact hall' c hc
  have hmem := mem_btoaCore (s.map Char.toNat) hbytes
  have hnws : ∀ c ∈ btoaCore (s.map Char.toNat) ++
      List.replicate (b64PadLen s.length) '=', (!(isB64Ws c)) = true := by
    intro c hc
    rcases List.mem_append.mp hc with hm | hm
    · rcases hmem c hm with ⟨i, hi, rfl⟩
      simp [b64Char_not_ws hi]
    · rw [List.eq_of_mem_replicate hm]
      decide
  have hlen : (btoaCore (s.map Char.toNat)).length =
      s.length / 3 * 4 + b64ExtraLen (s.length % 3) := by
    rw [btoaCore_length]
    simp
  have hm3 : s.length % 3 = 0 ∨ s.length % 3 = 1 ∨ s.length % 3 = 2 := by omega
  have hnoeq : ∀ c ∈ btoaCore (s.map Char.toNat), c ≠ '=' := by
    intro c hc
    rcases hmem c hc with ⟨i, hi, rfl⟩
    exact b64Char_ne_eq hi
  have hlen4 : (btoaCore (s.map Char.toNat) ++
      List.replicate (b64PadLen s.length) '=').length % 4 = 0 := by
    rw [List.length_append, List.length_replicate, hlen]
    unfold b64PadLen
    rcases hm3 with h3 | h3 | h3 <;> rw [h3] <;> simp [b64ExtraLen] <;> omega
  unfold b64Strip
  rw [List.filter_eq_self.mpr hnws, if_pos hlen4]
  rcases hm3 with h3 | h3 | h3
  · rw [show b64PadLen s.length = 0 by unfold b64PadLen; omega]
    simp only [List.replicate, List.append_nil]
    rw [dropLastEq_no_eq _ hnoeq, dropLastEq_no_eq _ hnoeq]
  · rw [show b64PadLen s.length = 2 by unfold b64PadLen; omega]
    rw [show List.replicate 2 '=' = ['='] ++ ['='] from rfl, ← List.append_assoc]
    rw [dropLastEq_append_eq, dropLastEq_append_eq]
  · rw [show b64PadLen s.length = 1 by unfold b64PadLen; omega]
    rw [show List.replicate 1 '=' = ['='] from rfl]
    rw [dropLastEq_append_eq, dropLastEq_no_eq _ hnoeq]

/-- `atob` inverts `btoa`. -/
theorem atob_btoa (s : Str) (t : Str) (h : btoa s = some t) : atob t = some s := by
  unfold btoa at h
  split at h
  · next hall =>
    have hall' : ∀ c ∈ s, c.toNat < 256 := by
      intro c hc
      have := List.all_eq_true.mp hall c hc
      simpa using this
    have hbytes : ∀ b ∈ s.map Char.toNat, b < 256 := by
      intro b hbm
      rcases List.mem_map.mp hbm with ⟨c, hc, rfl⟩
      exact hall' c hc
    have hmem := mem_btoaCore (s.map Char.toNat) hbytes
    rw [Option.some.injEq] at h
    subst h
    unfold atob
    rw [b64Strip_btoa s hall']
    have hlen : (btoaCore (s.map Char.toNat)).length =
        s.length / 3 * 4 + b64ExtraLen (s.length % 3) := by
      rw [btoaCore_length]
      simp
    have hm3 : s.length % 3 = 0 ∨ s.length % 3 = 1 ∨ s.length % 3 = 2 := by omega
    have hcore_len_ne1 : ¬((btoaCore (s.map Char.toNat)).length % 4 = 1) := by
      rw [hlen]
      rcases hm3 with h3 | h3 | h3 <;> rw [h3] <;> simp [b64ExtraLen] <;> omega
    rw [if_neg hcore_len_ne1]
    have hvalid : (btoaCore (s.map Char.toNat)).all
        (fun c => (b64Index c).isSome) = true := by
      rw [List.all_eq_true]
      intro c hc
      rcases hmem c hc with ⟨i, hi, rfl⟩
      exact b64Char_mem hi
    rw [if_pos hvalid, atobChunks_btoaCore _ hbytes]
    show some (List.map Char.ofNat (List.map Char.toNat s)) = some s
    rw [List.map_map]
    have hid : (Char.ofNat ∘ Char.toNat) = id := by
      funext c
      exact Char.ofNat_toNat c
    rw [hid, List.map_id]
  · exact absurd h (by simp)

/-! ## base64url, as used by the JWT utilities -/

/-- URL-safe substitution applied after `btoa`. -/
def b64UrlOf (c : Char) : Char :=
  if c = '+' then '-' else if c = '/' then '_' else c

/-- Inverse substitution applied before `atob`. -/
def b64UrlBack (c : Char) : Char :=
  if c = '-' then '+' else if c = '_' then '/' else c

/-- `base64URLEncode` from `jwt-utils.js` / `page-jwt-utils.js`:
`btoa(str)` with `+`→`-`, `/`→`_` and `=` removed.  `none` models the
`InvalidCharacterError` thrown by `btoa` on non-Latin-1 input. -/
def base64URLEncode (s : Str) : Option Str :=
  match btoa s with
  | some t => some ((t.filter (fun c => c != '=')).map b64UrlOf)
  | none => none

/-- `base64URLDecode` from the source: re-pad with `=` to a multiple of
four, undo the URL substitutions, and `atob`. -/
def base64URLDecode (s : Str) : Option Str :=
  atob ((s ++ List.replicate ((4 - s.length % 4) % 4) '=').map b64UrlBack)

theorem filter_ne_eq_replicate (p : Nat) :
    (List.replicate p '=').filter (fun c => c != '=') = [] := by
  induction p with
  | zero => rfl
  | succ n ih => simp [List.replicate_succ, ih]

theorem base64URLEncode_eq (s : Str) (hall : ∀ c ∈ s, c.toNat < 256) :
    base64URLEncode s = some ((btoaCore (s.map Char.toNat)).map b64UrlOf) := by
  have hbytes : ∀ b ∈ s.map Char.toNat, b < 256 := by
    intro b hbm
    rcases List.mem_map.mp hbm with ⟨c, hc, rfl⟩
    exact hall c hc
  have hmem := mem_btoaCore (s.map Char.toNat) hbytes
  have hb : btoa s = some (btoaCore (s.map Char.toNat) ++
      List.replicate (b64PadLen s.length) '=') := by
    unfold btoa
    rw [if_pos (List.all_eq_true.mpr (fun c hc => by simpa using hall c hc))]
  unfold base64URLEncode
  rw [hb]
  show some (((btoaCore (s.map Char.toNat) ++
      List.replicate (b64PadLen s.length) '=').filter (fun c => c != '=')).map b64UrlOf) = _
  have hfc : (btoaCore (s.map Char.toNat)).filter (fun c => c != '=') =
      btoaCore (s.map Char.toNat) := by
    apply List.filter_eq_self.mpr
    intro c hc
    rcases hmem c hc with ⟨i, hi, rfl⟩
    simpa using b64Char_ne_eq hi
  rw [List.filter_append, hfc, filter_ne_eq_replicate, List.append_nil]

theorem map_back_of (s : Str) (hall : ∀ c ∈ s, c.toNat < 256) :
    ((btoaCore (s.map Char.toNat)).map b64UrlOf).map b64UrlBack =
      btoaCore (s.map Char.toNat) := by
  have hbytes : ∀ b ∈ s.map Char.toNat, b < 256 := by
    intro b hbm
    rcases List.mem_map.mp hbm with ⟨c, hc, rfl⟩
    exact hall c hc
  have hmem := mem_btoaCore (s.map Char.toNat) hbytes
  rw [List.map_map]
  have : ∀ c ∈ btoaCore (s.map Char.toNat), (b64UrlBack ∘ b64UrlOf) c = id c := by
    intro c hc
    rcases hmem c hc with ⟨i, hi, rfl⟩
    have hall64 : ∀ j < 64, b64UrlBack (b64UrlOf (b64Char j)) = b64Char j := by decide
    exact hall64 i hi
  rw [List.map_congr_left this, List.map_id]

/-- `base64URLDecode` inverts `base64URLEncode` on Latin-1 strings. -/
theorem base64URLDecode_encode (s e : Str) (hall : ∀ c ∈ s, c.toNat < 256)
    (h : base64URLEncode s = some e) : base64URLDecode e = some s := by
  rw [base64URLEncode_eq s hall] at h
  rw [Option.some.injEq] at h
  subst h
  unfold base64URLDecode
  have hlen : (btoaCore (s.map Char.toNat)).length =
      s.length / 3 * 4 + b64ExtraLen (s.length % 3) := by
    rw [btoaCore_length]
    simp
  have hm3 : s.length % 3 = 0 ∨ s.length % 3 = 1 ∨ s.length % 3 = 2 := by omega
  have hmaplen : ((btoaCore (s.map Char.toNat)).map b64UrlOf).length =
      (btoaCore (s.map Char.toNat)).length := by simp
  have hpad : (4 - ((btoaCore (s.map Char.toNat)).map b64UrlOf).length % 4) % 4 =
      b64PadLen s.length := by
    rw [hmaplen, hlen]
    unfold b64PadLen
    rcases hm3 with h3 | h3 | h3 <;> rw [h3] <;> simp [b64ExtraLen] <;> omega
  rw [hpad, List.map_append, map_back_of s hall]
  have hrep : (List.replicate (b64PadLen s.length) '=').map b64UrlBack =
      List.replicate (b64PadLen s.length) '=' := by
    rw [List.map_replicate]
    rfl
  rw [hrep]
  apply atob_btoa
  unfold btoa
  rw [if_pos (List.all_eq_true.mpr (fun c hc => by simpa using hall c hc))]

/-- The characters emitted by `base64URLEncode` never include `.`, so the
three dot-joined token segments split back apart unambiguously. -/
theorem base64URLEncode_no_dot (s e : Str) (hall : ∀ c ∈ s, c.toNat < 256)
    (h : base64URLEncode s = some e) : ∀ c ∈ e, c ≠ '.' := by
  rw [base64URLEncode_eq s hall] at h
  rw [Option.some.injEq] at h
  subst h
  have hbytes : ∀ b ∈ s.map Char.toNat, b < 256 := by
    intro b hbm
    rcases List.mem_map.mp hbm with ⟨c, hc, rfl⟩
    exact hall c hc
  have hmem := mem_btoaCore (s.map Char.toNat) hbytes
  intro c hc
  rcases List.mem_map.mp hc with ⟨c0, hc0, rfl⟩
  rcases hmem c0 hc0 with ⟨i, hi, rfl⟩
  have hall64 : ∀ j < 64, b64UrlOf (b64Char j) ≠ '.' := by decide
  exact hall64 i hi

/-! ## JS value helpers -/

/-- JS `token.split('.')`. -/
def jsSplitDot : Str → List Str
  | [] => [[]]
  | c :: rest =>
    if c = '.' then [] :: jsSplitDot rest
    else
      match jsSplitDot rest with
      | [] => [[c]]
      | s :: ss => (c :: s) :: ss

theorem jsSplitDot_no_dot (a : Str) (h : ∀ c ∈ a, c ≠ '.') : jsSplitDot a = [a] := by
  induction a with
  | nil => rfl
  | cons c rest ih =>
    have hc : c ≠ '.' := h c (by simp)
    have hrest : ∀ x ∈ rest, x ≠ '.' := fun x hx => h x (by simp [hx])
    simp [jsSplitDot, hc, ih hrest]

theorem jsSplitDot_append (a r : Str) (h : ∀ c ∈ a, c ≠ '.') :
    jsSplitDot (a ++ '.' :: r) = a :: jsSplitDot r := by
  induction a with
  | nil => simp [jsSplitDot]
  | cons c rest ih =>
    have hc : c ≠ '.' := h c (by simp)
    have hrest : ∀ x ∈ rest, x ≠ '.' := fun x hx => h x (by simp [hx])
    rw [List.cons_append]
    show jsSplitDot (c :: (rest ++ '.' :: r)) = _
    rw [show jsSplitDot (c :: (rest ++ '.' :: r)) =
      (if c = '.' then [] :: jsSplitDot (rest ++ '.' :: r)
       else match jsSplitDot (rest ++ '.' :: r) with
            | [] => [[c]]
            | s :: ss => (c :: s) :: ss) from rfl]
    rw [if_neg hc, ih hrest]

/-- JS truthiness of a JSON value. -/
def jsTruthy : JVal → Bool
  | .null => false
  | .bool b => b
  | .num n => n != 0
  | .str s => s != []
  | .arr _ => true
  | .obj _ => true

/-- JS truthiness with `undefined` (`none`) falsy. -/
def jsTruthyOpt : Option JVal → Bool
  | none => false
  | some v => jsTruthy v

/-- String-to-number coercion for JS arithmetic on JSON string values:
the decimal integer grammar, `""` → 0, `none` for NaN.  Fractional,
signed-plus, hex, and whitespace-trimmed forms are not modelled — the
program only ever produces integer `exp` values. -/
def strToIntOpt (s : Str) : Option Int :=
  match s with
  | [] => some 0
  | '-' :: ds =>
    if ds ≠ [] ∧ ds.all isDigit then some (-(digitsToNat ds : Int)) else none
  | ds => if ds.all isDigit then some ((digitsToNat ds : Int)) else none

/-- JS `ToNumber` on JSON values, `none` for NaN (object/array coercion is
not modelled and treated as NaN). -/
def jsToNumber : JVal → Option Int
  | .null => some 0
  | .bool b => some (if b then 1 else 0)
  | .num n => some n
  | .str s => strToIntOpt s
  | .arr _ => none
  | .obj _ => none

/-- JS `v < n` against a number; NaN comparisons are false. -/
def jsLtNum (v : JVal) (n : Int) : Bool :=
  match jsToNumber v with
  | some m => m < n
  | none => false

/-- JS property access `v[key]`: a field of an object, `undefined`
(`none`) for any other non-null receiver. -/
def propGet : JVal → Str → Option JVal
  | .obj fs, key => fs.lookup key
  | _, _ => none

/-- JS property access including the `TypeError` thrown when the receiver
is `null` (the only non-object JSON value whose member access throws). -/
def jsGetE (v : JVal) (key : Str) : Except Str (Option JVal) :=
  match v with
  | .null => .error "TypeError: Cannot read properties of null".data
  | v => .ok (propGet v key)

/-! ## JWTUtils (`jwt-utils.js`, embedded in the repository README) -/

/-- The page-supplied HMAC capability (`crypto.subtle` HMAC-SHA256),
modelled as an opaque deterministic oracle from key and data to MAC
bytes.  The real implementation always returns 32 bytes below 256;
theorems that rely on byte-ness carry that as a hypothesis. -/
structure HostCrypto where
  hmacSHA256 : Str → Str → List Nat

/-- `createSignature(data, key)`: HMAC-SHA256 of `data` under `key`. -/
def createSignature (crypto : HostCrypto) (data key : Str) : List Nat :=
  crypto.hmacSHA256 key data

/-- `this.algorithm`. -/
def algorithm : Str := "HS256".data

/-- `this.tokenExpiry`: 15 minutes in milliseconds. -/
def tokenExpiry : Nat := 15 * 60 * 1000

/-- `createHeader()`. -/
def createHeader : JObj :=
  .cons "alg".data (.str algorithm) (.cons "typ".data (.str "JWT".data) .nil)

/-- `createPayload(customClaims)`: the fixed claims built from
`Date.now()` (milliseconds), with `...customClaims` spread last — so a
caller-supplied claim under a reserved key overwrites the fixed value in
place. -/
def createPayload (nowMs : Nat) (customClaims : JObj) : JObj :=
  spread
    (.cons "iss".data (.str "whatsupgemini-extension".data)
     (.cons "sub".data (.str "store-access".data)
      (.cons "aud".data (.str "whatsapp-web".data)
       (.cons "exp".data (.num (((nowMs + tokenExpiry) / 1000 : Nat) : Int))
        (.cons "iat".data (.num ((nowMs / 1000 : Nat) : Int))
         (.cons "scope".data (.arr (.cons (.str "store-read".data)
            (.cons (.str "audio-extract".data) .nil)))
          .nil))))))
    customClaims

/-- `String.fromCharCode.apply(null, signatureArray)`. -/
def bytesToStr (bs : List Nat) : Str := bs.map Char.ofNat

/-- `generateToken(customClaims)`.  `none` models the rethrown exception —
on this path only `btoa` can throw (non-Latin-1 payload text). -/
def generateToken (crypto : HostCrypto) (secretKey : Str) (nowMs : Nat)
    (customClaims : JObj) : Option Str :=
  match base64URLEncode (jsonStringify (.obj createHeader)) with
  | none => none
  | some encodedHeader =>
    match base64URLEncode (jsonStringify (.obj (createPayload nowMs customClaims))) with
    | none => none
    | some encodedPayload =>
      match base64URLEncode (bytesToStr (createSignature crypto
          (encodedHeader ++ '.' :: encodedPayload) secretKey)) with
      | none => none
      | some encodedSignature =>
        some ((encodedHeader ++ '.' :: encodedPayload) ++ '.' :: encodedSignature)

/-- Validation result record: `⁠{valid: true, payload}` or
`⁠{valid: false, error}`. -/
structure VResult where
  valid : Bool
  payload : Option JVal
  error : Option Str
deriving DecidableEq

/-- Model message for the `SyntaxError` thrown by `JSON.parse`. -/
def jsonErrorMsg : Str := "SyntaxError: Unexpected token in JSON".data

/-- Model message for the `InvalidCharacterError` thrown by `atob`/`btoa`. -/
def atobErrorMsg : Str := "InvalidCharacterError".data

/-- `JSON.parse(this.base64URLDecode(seg))` with both platform throws. -/
def decodeSegment (seg : Str) : Except Str JVal :=
  match base64URLDecode seg with
  | none => .error atobErrorMsg
  | some txt =>
    match jsonParse txt with
    | none => .error jsonErrorMsg
    | some v => .ok v

/-- The `try` body of `validateToken(token)`: every `throw new Error(msg)`
and platform exception becomes `.error msg`. -/
def validateTokenE (crypto : HostCrypto) (secretKey : Str) (nowSec : Nat)
    (token : Option Str) : Except Str JVal :=
  match token with
  | none => .error "Invalid token format".data
  | some tok =>
    if tok = [] then .error "Invalid token format".data
    else
      let parts := jsSplitDot tok
      if parts.length ≠ 3 then .error "Invalid token structure".data
      else
        let encodedHeader := parts.getD 0 []
        let encodedPayload := parts.getD 1 []
        let encodedSignature := parts.getD 2 []
        match decodeSegment encodedHeader with
        | .error e => .error e
        | .ok header =>
          match decodeSegment encodedPayload with
          | .error e => .error e
          | .ok payload =>
            match jsGetE header "alg".data with
            | .error e => .error e
            | .ok algv =>
              if algv ≠ some (.str algorithm) then .error "Invalid algorithm".data
              else
                match jsGetE payload "exp".data with
                | .error e => .error e
                | .ok expv =>
                  if jsTruthyOpt expv ∧
                      jsLtNum (expv.getD .null) (nowSec : Int) = true then
                    .error "Token expired".data
                  else
                    match base64URLEncode (bytesToStr (createSignature crypto
                        (encodedHeader ++ '.' :: encodedPayload) secretKey)) with
                    | none => .error atobErrorMsg
                    | some expectedEncodedSignature =>
                      if encodedSignature ≠ expectedEncodedSignature then
                        .error "Invalid signature".data
                      else .ok payload

/-- `validateToken(token)`: the `catch` turns a thrown error into
`⁠{valid: false, error}`. -/
def validateToken (crypto : HostCrypto) (secretKey : Str) (nowSec : Nat)
    (token : Option Str) : VResult :=
  match validateTokenE crypto secretKey nowSec token with
  | .ok payload => ⟨true, some payload, none⟩
  | .error e => ⟨false, none, some e⟩

/-- `needsRefresh(payload)`: refresh when there is no usable payload or
`exp`, or fewer than 120 seconds remain (`NaN < 120` is false, as in JS). -/
def needsRefresh (nowSec : Nat) (payload : Option JVal) : Bool :=
  match payload with
  | none => true
  | some p =>
    if !(jsTruthy p) then true
    else
      match propGet p "exp".data with
      | none => true
      | some e =>
        if !(jsTruthy e) then true
        else
          match jsToNumber e with
          | some m => m - (nowSec : Int) < 120
          | none => false

/-- `getValidToken(customClaims)`, with the `chrome.storage.local`
slot `currentJWT` made explicit: takes the stored value, returns the token
handed to the caller together with the new stored value.  `.error` models
the rethrown `generateToken` failure. -/
def getValidToken (crypto : HostCrypto) (secretKey : Str) (stored : Option Str)
    (nowMs : Nat) (customClaims : JObj) : Except Str (Str × Option Str) :=
  let cached : Option Str :=
    match stored with
    | some tok =>
      if tok ≠ [] then
        let validation := validateToken crypto secretKey (nowMs / 1000) (some tok)
        if validation.valid && !(needsRefresh (nowMs / 1000) validation.payload) then
          some tok
        else none
      else none
    | none => none
  match cached with
  | some tok => .ok (tok, stored)
  | none =>
    match generateToken crypto secretKey nowMs customClaims with
    | some newToken => .ok (newToken, some newToken)
    | none => .error atobErrorMsg

/-! ## PageJWTUtils (`page-jwt-utils.js`) -/

/-- Result record of `validateBasicToken`. -/
structure BResult where
  valid : Bool
  payload : Option JVal
  error : Option Str
  note : Option Str
deriving DecidableEq

/-- The body of `validateBasicToken(token)` before the surrounding
`try`/`catch`: identical structural checks to `validateToken`, with no
signature verification (the page context has no secret). -/
def validateBasicTokenE (nowSec : Nat) (token : Option Str) : Except Str JVal :=
  match token with
  | none => .error "Invalid token format".data
  | some tok =>
    if tok = [] then .error "Invalid token format".data
    else
      let parts := jsSplitDot tok
      if parts.length ≠ 3 then .error "Invalid token structure".data
      else
        match decodeSegment (parts.getD 0 []) with
        | .error e => .error e
        | .ok header =>
          match decodeSegment (parts.getD 1 []) with
          | .error e => .error e
          | .ok payload =>
            match jsGetE header "alg".data with
            | .error e => .error e
            | .ok algv =>
              if algv ≠ some (.str algorithm) then .error "Invalid algorithm".data
              else
                match jsGetE payload "exp".data with
                | .error e => .error e
                | .ok expv =>
                  if jsTruthyOpt expv ∧
                      jsLtNum (expv.getD .null) (nowSec : Int) = true then
                    .error "Token expired".data
                  else .ok payload

/-- `validateBasicToken(token)`: success carries the note that the
signature was not checked; failures carry the error message. -/
def validateBasicToken (nowSec : Nat) (token : Option Str) : BResult :=
  match validateBasicTokenE nowSec token with
  | .ok payload =>
    ⟨true, some payload, none, some "Signature not verified in page context".data⟩
  | .error e => ⟨false, none, some e, none⟩

/-! ## Latin-1 well-formedness (the `btoa` domain) -/

mutual
/-- Every string scalar and key in the value has character codes < 256. -/
def latin1V : JVal → Bool
  | .null => true
  | .bool _ => true
  | .num _ => true
  | .str s => s.all (fun c => c.toNat < 256)
  | .arr xs => latin1A xs
  | .obj fs => latin1O fs
/-- `latin1V` over an element list. -/
def latin1A : JArr → Bool
  | .nil => true
  | .cons v tl => latin1V v && latin1A tl
/-- `latin1V` over a member list. -/
def latin1O : JObj → Bool
  | .nil => true
  | .cons k v tl => k.all (fun c => c.toNat < 256) && latin1V v && latin1O tl
end

theorem hexDigitChar_latin1 {m : Nat} (h : m < 16) : (hexDigitChar m).toNat < 256 := by
  have hall : ∀ j < 16, (hexDigitChar j).toNat < 256 := by decide
  exact hall m h

theorem escape_latin1 (s : Str) (h : ∀ c ∈ s, c.toNat < 256) :
    ∀ c ∈ escape s, c.toNat < 256 := by
  induction s with
  | nil => intro c hc; simp [escape] at hc
  | cons c0 s' ih =>
    intro c hc
    rw [show escape (c0 :: s') = escChar c0 ++ escape s' from rfl] at hc
    rcases List.mem_append.mp hc with hm | hm
    · have hc0 : c0.toNat < 256 := h c0 (by simp)
      unfold escChar at hm
      split at hm
      · simp at hm; rcases hm with rfl | rfl <;> decide
      · split at hm
        · simp at hm; rcases hm with rfl | rfl <;> decide
        · split at hm
          · simp at hm; rcases hm with rfl | rfl <;> decide
          · split at hm
            · simp at hm; rcases hm with rfl | rfl <;> decide
            · split at hm
              · simp at hm; rcases hm with rfl | rfl <;> decide
              · split at hm
                · simp at hm; rcases hm with rfl | rfl <;> decide
                · split at hm
                  · simp at hm; rcases hm with rfl | rfl <;> decide
                  · split at hm
                    · next h32 =>
                      simp at hm
                      rcases hm with rfl | rfl | rfl | rfl | rfl | rfl <;>
                        first
                          | decide
                          | exact @hexDigitChar_latin1 _ (by omega)
                    · simp at hm
                      subst hm
                      exact hc0
    · exact ih (fun x hx => h x (by simp [hx])) c hm

theorem natToStr_latin1 (n : Nat) : ∀ c ∈ natToStr n, c.toNat < 256 := by
  intro c hc
  have := natToStr_all_digits n c hc
  simp [isDigit] at this
  omega

theorem intToStr_latin1 (n : Int) : ∀ c ∈ intToStr n, c.toNat < 256 := by
  intro c hc
  unfold intToStr at hc
  split at hc
  · simp at hc
    rcases hc with rfl | hm
    · decide
    · exact natToStr_latin1 _ c hm
  · exact natToStr_latin1 _ c hc

mutual
theorem latin1_stringifyV (v : JVal) (h : latin1V v = true) :
    ∀ c ∈ stringifyV v, c.toNat < 256 := by
  cases v with
  | null => intro c hc; simp [stringifyV] at hc; rcases hc with rfl | rfl | rfl | rfl <;> decide
  | bool b =>
    cases b <;> intro c hc <;> simp [stringifyV] at hc
    · rcases hc with rfl | rfl | rfl | rfl | rfl <;> decide
    · rcases hc with rfl | rfl | rfl | rfl <;> decide
  | num n => exact fun c hc => intToStr_latin1 n c hc
  | str s =>
    intro c hc
    have hs : ∀ x ∈ s, x.toNat < 256 := by
      simpa [latin1V] using h
    rw [show stringifyV (.str s) = '\"' :: escape s ++ ['\"'] from rfl] at hc
    simp at hc
    rcases hc with rfl | hm | rfl
    · decide
    · exact escape_latin1 s hs c hm
    · decide
  | arr xs =>
    intro c hc
    rw [show stringifyV (.arr xs) = '[' :: stringifyA xs from rfl] at hc
    simp at hc
    rcases hc with rfl | hm
    · decide
    · exact latin1_stringifyA xs (by simpa [latin1V] using h) c hm
  | obj fs =>
    intro c hc
    rw [show stringifyV (.obj fs) = lbr :: stringifyO fs from rfl] at hc
    simp at hc
    rcases hc with rfl | hm
    · decide
    · exact latin1_stringifyO fs (by simpa [latin1V] using h) c hm

theorem latin1_stringifyA (xs : JArr) (h : latin1A xs = true) :
    ∀ c ∈ stringifyA xs, c.toNat < 256 := by
  cases xs with
  | nil => intro c hc; simp [stringifyA] at hc; subst hc; decide
  | cons v tl =>
    intro c hc
    have hv : latin1V v = true ∧ latin1A tl = true := by
      simpa [latin1A, Bool.and_eq_true] using h
    rw [show stringifyA (.cons v tl) = stringifyV v ++ stringifyARest tl from rfl] at hc
    rcases List.mem_append.mp hc with hm | hm
    · exact latin1_stringifyV v hv.1 c hm
    · exact latin1_stringifyARest tl hv.2 c hm

theorem latin1_stringifyARest (tl : JArr) (h : latin1A tl = true) :
    ∀ c ∈ stringifyARest tl, c.toNat < 256 := by
  cases tl with
  | nil => intro c hc; simp [stringifyARest] at hc; subst hc; decide
  | cons v tl' =>
    intro c hc
    have hv : latin1V v = true ∧ latin1A tl' = true := by
      simpa [latin1A, Bool.and_eq_true] using h
    rw [show stringifyARest (.cons v tl') =
      ',' :: stringifyV v ++ stringifyARest tl' from rfl] at hc
    simp at hc
    rcases hc with rfl | hm | hm
    · decide
    · exact latin1_stringifyV v hv.1 c hm
    · exact latin1_stringifyARest tl' hv.2 c hm

theorem latin1_stringifyO (fs : JObj) (h : latin1O fs = true) :
    ∀ c ∈ stringifyO fs, c.toNat < 256 := by
  cases fs with
  | nil => intro c hc; simp [stringifyO] at hc; subst hc; decide
  | cons k v tl =>
    intro c hc
    have hv : (k.all (fun c => c.toNat < 256)) = true ∧ latin1V v = true ∧
        latin1O tl = true := by
      simpa [latin1O, Bool.and_eq_true, and_assoc] using h
    have hk : ∀ x ∈ k, x.toNat < 256 := by
      intro x hx
      have := List.all_eq_true.mp hv.1 x hx
      simpa using this
    rw [stringifyO_cons] at hc
    simp at hc
    rcases hc with rfl | hm | rfl | rfl | hm | hm
    · decide
    · exact escape_latin1 k hk c hm
    · decide
    · decide
    · exact latin1_stringifyV v hv.2.1 c hm
    · exact latin1_stringifyORest tl hv.2.2 c hm

theorem latin1_stringifyORest (tl : JObj) (h : latin1O tl = true) :
    ∀ c ∈ stringifyORest tl, c.toNat < 256 := by
  cases tl with
  | nil => intro c hc; simp [stringifyORest] at hc; subst hc; decide
  | cons k v tl' =>
    intro c hc
    have hv : (k.all (fun c => c.toNat < 256)) = true ∧ latin1V v = true ∧
        latin1O tl' = true := by
      simpa [latin1O, Bool.and_eq_true, and_assoc] using h
    have hk : ∀ x ∈ k, x.toNat < 256 := by
      intro x hx
      have := List.all_eq_true.mp hv.1 x hx
      simpa using this
    rw [stringifyORest_cons] at hc
    simp at hc
    rcases hc with rfl | rfl | hm | rfl | rfl | hm | hm
    · decide
    · decide
    · exact escape_latin1 k hk c hm
    · decide
    · decide
    · exact latin1_stringifyV v hv.2.1 c hm
    · exact latin1_stringifyORest tl' hv.2.2 c hm
end

/-- `JObj.set` preserves Latin-1 well-formedness. -/
theorem latin1O_set (o : JObj) (k : Str) (v : JVal)
    (ho : latin1O o = true) (hk : k.all (fun c => c.toNat < 256) = true)
    (hv : latin1V v = true) : latin1O (o.set k v) = true := by
  cases o with
  | nil => simp [JObj.set, latin1O, hk, hv]
  | cons k1 w tl =>
    have h1 : (k1.all (fun c => c.toNat < 256)) = true ∧ latin1V w = true ∧
        latin1O tl = true := by
      simpa [latin1O, Bool.and_eq_true, and_assoc] using ho
    by_cases he : k1 = k
    · simp [JObj.set, he, latin1O, hk, hv, h1.2.2]
    · simp [JObj.set, he, latin1O, h1.1, h1.2.1,
        latin1O_set tl k v h1.2.2 hk hv]

/-- `spread` preserves Latin-1 well-formedness. -/
theorem latin1O_spread (extra : JObj) (base : JObj)
    (hb : latin1O base = true) (he : latin1O extra = true) :
    latin1O (spread base extra) = true := by
  cases extra with
  | nil => exact hb
  | cons k v tl =>
    have h1 : (k.all (fun c => c.toNat < 256)) = true ∧ latin1V v = true ∧
        latin1O tl = true := by
      simpa [latin1O, Bool.and_eq_true, and_assoc] using he
    exact latin1O_spread tl (base.set k v) (latin1O_set base k v hb h1.1 h1.2.1) h1.2.2

/-! ## Mint/verify round trip -/

theorem latin1_createPayload (nowMs : Nat) (C : JObj) (hC : latin1O C = true) :
    latin1O (createPayload nowMs C) = true := by
  apply latin1O_spread C _ _ hC
  simp [latin1O, latin1V, latin1A]

/-- The fixed `exp` claim survives the spread when the caller supplies no
`exp` claim of its own. -/
theorem createPayload_exp (nowMs : Nat) (C : JObj) (hexp : "exp".data ∉ C.keys) :
    (createPayload nowMs C).lookup "exp".data =
      some (.num (((nowMs + tokenExpiry) / 1000 : Nat) : Int)) := by
  unfold createPayload
  rw [spread_lookup_of_not_mem C _ _ hexp]
  simp [JObj.lookup]

/-- Caller-supplied custom claims always appear verbatim in the payload
(spread-last), whether or not their key collides with a reserved field. -/
theorem createPayload_custom (nowMs : Nat) (C : JObj) (hnd : C.keys.Nodup)
    (k : Str) (v : JVal) (hm : (k, v) ∈ C.entries) :
    (createPayload nowMs C).lookup k = some v :=
  spread_lookup_of_mem C _ k v hnd hm

/-- Everything `generateToken` produces, in one place: the minted token,
its three dot-separated segments, the round trip of header and payload
segments, and the encoding of the recomputed signature. -/
theorem generateToken_spec (crypto : HostCrypto) (secretKey : Str)
    (nowMs : Nat) (C : JObj)
    (hmac : ∀ k d, ∀ b ∈ crypto.hmacSHA256 k d, b < 256)
    (hlat : latin1O C = true) :
    ∃ eh ep es,
      generateToken crypto secretKey nowMs C = some ((eh ++ '.' :: ep) ++ '.' :: es) ∧
      jsSplitDot ((eh ++ '.' :: ep) ++ '.' :: es) = [eh, ep, es] ∧
      (eh ++ '.' :: ep) ++ '.' :: es ≠ [] ∧
      decodeSegment eh = .ok (.obj createHeader) ∧
      decodeSegment ep = .ok (.obj (createPayload nowMs C)) ∧
      base64URLEncode (bytesToStr (createSignature crypto
        (eh ++ '.' :: ep) secretKey)) = some es := by
  have hheadLat : ∀ c ∈ jsonStringify (.obj createHeader), c.toNat < 256 := by decide
  have hPlat : ∀ c ∈ jsonStringify (.obj (createPayload nowMs C)), c.toNat < 256 :=
    latin1_stringifyV _ (latin1_createPayload nowMs C hlat)
  have hehEq := base64URLEncode_eq (jsonStringify (.obj createHeader)) hheadLat
  have hepEq := base64URLEncode_eq (jsonStringify (.obj (createPayload nowMs C))) hPlat
  set eh := (btoaCore ((jsonStringify (.obj createHeader)).map Char.toNat)).map b64UrlOf
    with heh
  set ep := (btoaCore ((jsonStringify
    (.obj (createPayload nowMs C))).map Char.toNat)).map b64UrlOf with hep
  have hsigLat : ∀ c ∈ bytesToStr (createSignature crypto
      (eh ++ '.' :: ep) secretKey), c.toNat < 256 := by
    intro c hc
    rcases List.mem_map.mp hc with ⟨b, hb, rfl⟩
    have hb256 : b < 256 := hmac _ _ b hb
    rw [charToNat_ofNat (by omega)]
    exact hb256
  have hesEq := base64URLEncode_eq
    (bytesToStr (createSignature crypto (eh ++ '.' :: ep) secretKey)) hsigLat
  set es := (btoaCore ((bytesToStr (createSignature crypto
    (eh ++ '.' :: ep) secretKey)).map Char.toNat)).map b64UrlOf with hes
  have hdh := base64URLEncode_no_dot _ eh hheadLat hehEq
  have hdp := base64URLEncode_no_dot _ ep hPlat hepEq
  have hds := base64URLEncode_no_dot _ es hsigLat hesEq
  have hassoc : (eh ++ '.' :: ep) ++ '.' :: es = eh ++ '.' :: (ep ++ '.' :: es) := by
    simp
  refine ⟨eh, ep, es, ?_, ?_, by simp, ?_, ?_, hesEq⟩
  · unfold generateToken
    rw [hehEq]
    show (match base64URLEncode (jsonStringify (.obj (createPayload nowMs C))) with
      | none => none
      | some encodedPayload =>
        match base64URLEncode (bytesToStr (createSignature crypto
            (eh ++ '.' :: encodedPayload) secretKey)) with
        | none => none
        | some encodedSignature =>
          some ((eh ++ '.' :: encodedPayload) ++ '.' :: encodedSignature)) = _
    rw [hepEq]
    show (match base64URLEncode (bytesToStr (createSignature crypto
        (eh ++ '.' :: ep) secretKey)) with
      | none => none
      | some encodedSignature => some ((eh ++ '.' :: ep) ++ '.' :: encodedSignature)) = _
    rw [hesEq]
  · rw [hassoc, jsSplitDot_append eh _ hdh, jsSplitDot_append ep _ hdp,
      jsSplitDot_no_dot es hds]
  · unfold decodeSegment
    rw [base64URLDecode_encode _ eh hheadLat hehEq]
    show (match jsonParse (jsonStringify (.obj createHeader)) with
      | none => Except.error jsonErrorMsg
      | some v => Except.ok v) = _
    rw [jsonParse_stringify]
  · unfold decodeSegment
    rw [base64URLDecode_encode _ ep hPlat hepEq]
    show (match jsonParse (jsonStringify (.obj (createPayload nowMs C))) with
      | none => Except.error jsonErrorMsg
      | some v => Except.ok v) = _
    rw [jsonParse_stringify]

/-- Validity dichotomy of a minted token (no reserved `exp` override):
within the lifetime window the token validates with exactly the minted
payload; after the lifetime it fails with `Token expired`. -/
theorem validateToken_generated (crypto : HostCrypto) (secretKey : Str)
    (nowMs t : Nat) (C : JObj) (tok : Str)
    (hmac : ∀ k d, ∀ b ∈ crypto.hmacSHA256 k d, b < 256)
    (hlat : latin1O C = true)
    (hexp : "exp".data ∉ C.keys)
    (htok : generateToken crypto secretKey nowMs C = some tok) :
    (t ≤ nowMs / 1000 + 900 →
      validateToken crypto secretKey t (some tok) =
        ⟨true, some (.obj (createPayload nowMs C)), none⟩) ∧
    (nowMs / 1000 + 900 < t →
      validateToken crypto secretKey t (some tok) =
        ⟨false, none, some "Token expired".data⟩) := by
  obtain ⟨eh, ep, es, hgen, hsplit, hne, hdecH, hdecP, hesEq⟩ :=
    generateToken_spec crypto secretKey nowMs C hmac hlat
  rw [htok] at hgen
  rw [Option.some.injEq] at hgen
  subst hgen
  have hgetAlg : jsGetE (.obj createHeader) "alg".data =
      .ok (some (.str algorithm)) := by rfl
  have hgetExp : jsGetE (.obj (createPayload nowMs C)) "exp".data =
      .ok (some (.num (((nowMs + tokenExpiry) / 1000 : Nat) : Int))) := by
    show Except.ok (propGet (.obj (createPayload nowMs C)) "exp".data) = _
    rw [show propGet (.obj (createPayload nowMs C)) "exp".data =
      (createPayload nowMs C).lookup "exp".data from rfl]
    rw [createPayload_exp nowMs C hexp]
  constructor
  · intro ht
    have hE : validateTokenE crypto secretKey t (some ((eh ++ '.' :: ep) ++ '.' :: es)) =
        .ok (.obj (createPayload nowMs C)) := by
      simp only [validateTokenE, hsplit]
      rw [if_neg hne]
      simp [hdecH, hdecP, hgetAlg, hgetExp, hesEq]
      intro _
      show decide ((((nowMs : Int) + (tokenExpiry : Int)) / 1000) < (t : Int)) = false
      rw [decide_eq_false_iff_not]
      have htE : (tokenExpiry : Int) = 900000 := rfl
      omega
    unfold validateToken
    rw [hE]
  · intro ht
    have htr : jsTruthyOpt (some (JVal.num (((nowMs : Int) + (tokenExpiry : Int)) / 1000)))
        = true := by
      show (((((nowMs : Int) + (tokenExpiry : Int)) / 1000)) != 0) = true
      rw [bne_iff_ne]
      have htE : (tokenExpiry : Int) = 900000 := rfl
      omega
    have hltv : jsLtNum (JVal.num (((nowMs : Int) + (tokenExpiry : Int)) / 1000))
        (t : Int) = true := by
      show decide ((((nowMs : Int) + (tokenExpiry : Int)) / 1000) < (t : Int)) = true
      rw [decide_eq_true_eq]
      have htE : (tokenExpiry : Int) = 900000 := rfl
      omega
    have hE : validateTokenE crypto secretKey t (some ((eh ++ '.' :: ep) ++ '.' :: es)) =
        .error "Token expired".data := by
      simp only [validateTokenE, hsplit]
      rw [if_neg hne]
      simp [hdecH, hdecP, hgetAlg, hgetExp, htr, hltv]
    unfold validateToken
    rw [hE]

/-- Round-trip core: a token minted by `generateToken` validates under the
same crypto oracle and secret at any time up to `iat + 900` seconds,
returning exactly the minted payload, provided the custom claims are
Latin-1 safe and do not override the reserved `exp` field. -/
theorem validateToken_generateToken (crypto : HostCrypto) (secretKey : Str)
    (nowMs t : Nat) (C : JObj)
    (hmac : ∀ k d, ∀ b ∈ crypto.hmacSHA256 k d, b < 256)
    (hlat : latin1O C = true)
    (hexp : "exp".data ∉ C.keys)
    (ht : t ≤ nowMs / 1000 + 900) :
    ∃ tok, generateToken crypto secretKey nowMs C = some tok ∧
      validateToken crypto secretKey t (some tok) =
        ⟨true, some (.obj (createPayload nowMs C)), none⟩ := by
  obtain ⟨eh, ep, es, hgen, -, -, -, -, -⟩ :=
    generateToken_spec crypto secretKey nowMs C hmac hlat
  exact ⟨_, hgen,
    (validateToken_generated crypto secretKey nowMs t C _ hmac hlat hexp hgen).1 ht⟩

/-- Any Latin-1 payload object can be packaged as a signed three-segment
token whose segments split and decode back; `generateToken` is the special
case with the payload built by `createPayload`. -/
theorem signedParts_spec (crypto : HostCrypto) (secretKey : Str) (P : JObj)
    (hmac : ∀ k d, ∀ b ∈ crypto.hmacSHA256 k d, b < 256)
    (hlat : latin1O P = true) :
    ∃ eh ep es,
      jsSplitDot ((eh ++ '.' :: ep) ++ '.' :: es) = [eh, ep, es] ∧
      (eh ++ '.' :: ep) ++ '.' :: es ≠ [] ∧
      decodeSegment eh = .ok (.obj createHeader) ∧
      decodeSegment ep = .ok (.obj P) ∧
      base64URLEncode (bytesToStr (createSignature crypto
        (eh ++ '.' :: ep) secretKey)) = some es := by
  have hheadLat : ∀ c ∈ jsonStringify (.obj createHeader), c.toNat < 256 := by decide
  have hPlat : ∀ c ∈ jsonStringify (.obj P), c.toNat < 256 :=
    latin1_stringifyV _ hlat
  have hehEq := base64URLEncode_eq (jsonStringify (.obj createHeader)) hheadLat
  have hepEq := base64URLEncode_eq (jsonStringify (.obj P)) hPlat
  set eh := (btoaCore ((jsonStringify (.obj createHeader)).map Char.toNat)).map b64UrlOf
    with heh
  set ep := (btoaCore ((jsonStringify (.obj P)).map Char.toNat)).map b64UrlOf with hep
  have hsigLat : ∀ c ∈ bytesToStr (createSignature crypto
      (eh ++ '.' :: ep) secretKey), c.toNat < 256 := by
    intro c hc
    rcases List.mem_map.mp hc with ⟨b, hb, rfl⟩
    have hb256 : b < 256 := hmac _ _ b hb
    rw [charToNat_ofNat (by omega)]
    exact hb256
  have hesEq := base64URLEncode_eq
    (bytesToStr (createSignature crypto (eh ++ '.' :: ep) secretKey)) hsigLat
  set es := (btoaCore ((bytesToStr (createSignature crypto
    (eh ++ '.' :: ep) secretKey)).map Char.toNat)).map b64UrlOf with hes
  have hdh := base64URLEncode_no_dot _ eh hheadLat hehEq
  have hdp := base64URLEncode_no_dot _ ep hPlat hepEq
  have hds := base64URLEncode_no_dot _ es hsigLat hesEq
  have hassoc : (eh ++ '.' :: ep) ++ '.' :: es = eh ++ '.' :: (ep ++ '.' :: es) := by
    simp
  refine ⟨eh, ep, es, ?_, by simp, ?_, ?_, hesEq⟩
  · rw [hassoc, jsSplitDot_append eh _ hdh, jsSplitDot_append ep _ hdp,
      jsSplitDot_no_dot es hds]
  · unfold decodeSegment
    rw [base64URLDecode_encode _ eh hheadLat hehEq]
    show (match jsonParse (jsonStringify (.obj createHeader)) with
      | none => Except.error jsonErrorMsg
      | some v => Except.ok v) = _
    rw [jsonParse_stringify]
  · unfold decodeSegment
    rw [base64URLDecode_encode _ ep hPlat hepEq]
    show (match jsonParse (jsonStringify (.obj P)) with
      | none => Except.error jsonErrorMsg
      | some v => Except.ok v) = _
    rw [jsonParse_stringify]

/-- Evaluation of `validateTokenE` on a well-formed signed token from its
segment facts: everything reduces to the expiry test on the payload. -/
theorem validateTokenE_parts (crypto : HostCrypto) (secretKey : Str) (nowSec : Nat)
    (eh ep es : Str) (P : JObj)
    (hsplit : jsSplitDot ((eh ++ '.' :: ep) ++ '.' :: es) = [eh, ep, es])
    (hdecH : decodeSegment eh = .ok (.obj createHeader))
    (hdecP : decodeSegment ep = .ok (.obj P))
    (hesEq : base64URLEncode (bytesToStr (createSignature crypto
      (eh ++ '.' :: ep) secretKey)) = some es) :
    validateTokenE crypto secretKey nowSec (some ((eh ++ '.' :: ep) ++ '.' :: es)) =
      if jsTruthyOpt (P.lookup "exp".data) ∧
          jsLtNum ((P.lookup "exp".data).getD .null) (nowSec : Int) = true
      then .error "Token expired".data
      else .ok (.obj P) := by
  have hne : (eh ++ '.' :: ep) ++ '.' :: es ≠ [] := by simp
  have hgetAlg : jsGetE (.obj createHeader) "alg".data =
      .ok (some (.str algorithm)) := by rfl
  have hgetExp : jsGetE (.obj P) "exp".data = .ok (P.lookup "exp".data) := rfl
  simp only [validateTokenE, hsplit]
  rw [if_neg hne]
  simp [hdecH, hdecP, hgetAlg, hgetExp, hesEq]

/-- `validateToken` accepts a well-formed signed token whose payload does
not pass the expiry test. -/
theorem validateToken_parts_ok (crypto : HostCrypto) (secretKey : Str) (nowSec : Nat)
    (eh ep es : Str) (P : JObj)
    (hsplit : jsSplitDot ((eh ++ '.' :: ep) ++ '.' :: es) = [eh, ep, es])
    (hdecH : decodeSegment eh = .ok (.obj createHeader))
    (hdecP : decodeSegment ep = .ok (.obj P))
    (hesEq : base64URLEncode (bytesToStr (createSignature crypto
      (eh ++ '.' :: ep) secretKey)) = some es)
    (hok : ¬(jsTruthyOpt (P.lookup "exp".data) ∧
      jsLtNum ((P.lookup "exp".data).getD .null) (nowSec : Int) = true)) :
    validateToken crypto secretKey nowSec (some ((eh ++ '.' :: ep) ++ '.' :: es)) =
      ⟨true, some (.obj P), none⟩ := by
  unfold validateToken
  rw [validateTokenE_parts crypto secretKey nowSec eh ep es P hsplit hdecH hdecP hesEq,
    if_neg hok]

/-- `validateToken` rejects a well-formed signed token whose payload passes
the expiry test, with the `Token expired` error. -/
theorem validateToken_parts_expired (crypto : HostCrypto) (secretKey : Str)
    (nowSec : Nat) (eh ep es : Str) (P : JObj)
    (hsplit : jsSplitDot ((eh ++ '.' :: ep) ++ '.' :: es) = [eh, ep, es])
    (hdecH : decodeSegment eh = .ok (.obj createHeader))
    (hdecP : decodeSegment ep = .ok (.obj P))
    (hesEq : base64URLEncode (bytesToStr (createSignature crypto
      (eh ++ '.' :: ep) secretKey)) = some es)
    (hexp : jsTruthyOpt (P.lookup "exp".data) ∧
      jsLtNum ((P.lookup "exp".data).getD .null) (nowSec : Int) = true) :
    validateToken crypto secretKey nowSec (some ((eh ++ '.' :: ep) ++ '.' :: es)) =
      ⟨false, none, some "Token expired".data⟩ := by
  unfold validateToken
  rw [validateTokenE_parts crypto secretKey nowSec eh ep es P hsplit hdecH hdecP hesEq,
    if_pos hexp]

/-- Evaluation of `validateBasicTokenE` on a well-formed token from its
segment facts: no signature step, everything reduces to the expiry test. -/
theorem validateBasicTokenE_parts (nowSec : Nat) (eh ep es : Str) (P : JObj)
    (hsplit : jsSplitDot ((eh ++ '.' :: ep) ++ '.' :: es) = [eh, ep, es])
    (hdecH : decodeSegment eh = .ok (.obj createHeader))
    (hdecP : decodeSegment ep = .ok (.obj P)) :
    validateBasicTokenE nowSec (some ((eh ++ '.' :: ep) ++ '.' :: es)) =
      if jsTruthyOpt (P.lookup "exp".data) ∧
          jsLtNum ((P.lookup "exp".data).getD .null) (nowSec : Int) = true
      then .error "Token expired".data
      else .ok (.obj P) := by
  have hne : (eh ++ '.' :: ep) ++ '.' :: es ≠ [] := by simp
  have hgetAlg : jsGetE (.obj createHeader) "alg".data =
      .ok (some (.str algorithm)) := by rfl
  have hgetExp : jsGetE (.obj P) "exp".data = .ok (P.lookup "exp".data) := rfl
  simp only [validateBasicTokenE, hsplit]
  rw [if_neg hne]
  simp [hdecH, hdecP, hgetAlg, hgetExp]

/-- A concrete HMAC oracle for ground instances: every byte is below 256. -/
def toyCrypto : HostCrypto := ⟨fun _ _ => [1, 2, 3]⟩

/-- The toy oracle satisfies the byte bound demanded of `crypto.subtle`. -/
theorem toyCrypto_bytes : ∀ k d, ∀ b ∈ toyCrypto.hmacSHA256 k d, b < 256 := by
  intro k d b hb
  simp only [toyCrypto, List.mem_cons] at hb
  rcases hb with h | h | h | h <;> simp_all

/-- A concrete secret for ground instances. -/
def secretK : Str := "whatsapp-gemini-secret".data

/-! ## Executor (`inject.js`) -/

/-- JS `dataUrl.split(',')`. -/
def jsSplitComma : Str → List Str
  | [] => [[]]
  | c :: rest =>
    if c = ',' then [] :: jsSplitComma rest
    else
      match jsSplitComma rest with
      | [] => [[c]]
      | s :: ss => (c :: s) :: ss

/-- JS truthiness of a possibly-absent string (`undefined`, `null` and
`""` are falsy). -/
def jsTruthyStr : Option Str → Bool
  | none => false
  | some s => s != []

/-- A message record from the host page's `Store.Msg`, with the fields the
executor reads.  Media-reference fields are modelled as present or absent;
presence stands for JS truthiness of the field. -/
structure MsgRecord where
  type : Str
  directPath : Option Str
  encFilehash : Option Str
  filehash : Option Str
  mediaKey : Option Str
  mimetype : Option Str
deriving DecidableEq

/-- Outcome of the `FileReader` data-URL conversion. -/
inductive ReaderOut where
  | ok (dataUrl : Str)
  | badResult
  | errored
deriving DecidableEq

/-- The Executor's environment: page-context state and host capabilities.
`resolve` is the "given an id, return a record or null" lookup capability
(`Store.Msg.get`, reached directly or through the Wid-parsed key);
`dlResult` is the outcome of the download/decrypt capability when invoked. -/
structure ExecEnv where
  pageJWTUtils : Bool
  nowSec : Nat
  hasStore : Bool
  resolve : Str → Option MsgRecord
  dlFnPresent : Bool
  dlResult : Except Str Str
  readerOut : ReaderOut

/-- A value rejected through the promise chain of `getWhatsAppAudioData`:
every rejection is a plain string, except `reader.onerror`, which rejects
with the error event itself. -/
inductive RejectVal where
  | str (s : Str)
  | event
deriving DecidableEq

/-- JS `x.message` on a rejection value: neither a plain string nor an
event has a `message` property, so the result is always `undefined`. -/
def jsMessage : RejectVal → Option Str
  | .str _ => none
  | .event => none

/-- Success payload `⁠{base64Audio, mimeType}`; `base64Audio` is
`reader.result.split(',')[1]`, `undefined` when the data URL has no comma. -/
structure AudioPayload where
  base64Audio : Option Str
  mimeType : Str
deriving DecidableEq

/-- Result of one executor run, instrumented with whether the
download/decrypt capability was invoked. -/
structure ExecOutcome where
  result : Except RejectVal AudioPayload
  downloadInvoked : Bool

/-- The store phase of `getWhatsAppAudioData` (everything after the JWT
guard): Store presence check, message resolution, audio-type check, media
fields and download function check, download, data-URL conversion. -/
def storePhase (env : ExecEnv) (messageId : Str) : ExecOutcome :=
  if !env.hasStore then
    ⟨.error (.str ("WhatsApp internal Store objects not found. Ensure lib.js is loaded and ExposeStore() is called.".data)), false⟩
  else
    match env.resolve messageId with
    | none =>
      ⟨.error (.str ("Message not found in WhatsApp store with ID: ".data ++ messageId)),
        false⟩
    | some msg =>
      if msg.type = "ptt".data ∨ msg.type = "audio".data then
        if env.dlFnPresent ∧ msg.directPath.isSome ∧ msg.encFilehash.isSome ∧
            msg.filehash.isSome ∧ msg.mediaKey.isSome then
          match env.dlResult with
          | .error m =>
            ⟨.error (.str ("Error downloading or decrypting audio: ".data ++ m)), true⟩
          | .ok _ =>
            match env.readerOut with
            | .ok dataUrl =>
              ⟨.ok ⟨(jsSplitComma dataUrl)[1]?,
                msg.mimetype.getD "application/octet-stream".data⟩, true⟩
            | .badResult => ⟨.error (.str "Failed to convert blob to base64.".data), true⟩
            | .errored => ⟨.error .event, true⟩
        else
          ⟨.error (.str ("Required media properties or download function not found for audio message. Message ID: ".data ++ messageId)),
            false⟩
      else
        ⟨.error (.str ("Message is not an audio message. Message ID: ".data ++ messageId)),
          false⟩

/-- `getWhatsAppAudioData(messageId, jwtToken)`: basic JWT validation runs
only when both a truthy token and the page JWT utilities are present
(otherwise the code merely logs a warning and proceeds); then the store
phase. -/
def getWhatsAppAudioData (env : ExecEnv) (messageId : Str) (jwtToken : Option Str) :
    ExecOutcome :=
  if jsTruthyStr jwtToken ∧ env.pageJWTUtils = true then
    if !(validateBasicToken env.nowSec jwtToken).valid then
      ⟨.error (.str ("JWT token validation failed: ".data ++
        ((validateBasicToken env.nowSec jwtToken).error.getD []))), false⟩
    else storePhase env messageId
  else storePhase env messageId

/-- One `whatsappGeminiTranscriber_audioDataResponse` frame: a success
frame carries `⁠{messageId, base64Audio, mimeType}`; a failure frame
carries `⁠{messageId, error}` whose `error` value is `error.message` of
the caught rejection value. -/
structure Frame where
  messageId : Str
  success : Option AudioPayload
  errorField : Option (Option Str)

/-- The `whatsappGeminiTranscriber_getAudioData` listener: awaits the
executor and dispatches exactly one response frame per request (the
returned value models that single dispatched frame). -/
def handleGetAudioData (env : ExecEnv) (messageId : Str) (jwtToken : Option Str) :
    Frame × Bool :=
  match (getWhatsAppAudioData env messageId jwtToken).result with
  | .ok p => (⟨messageId, some p, none⟩,
      (getWhatsAppAudioData env messageId jwtToken).downloadInvoked)
  | .error rv => (⟨messageId, none, some (jsMessage rv)⟩,
      (getWhatsAppAudioData env messageId jwtToken).downloadInvoked)

/-! ## Claim theorems -/

/-- The custom-claims object `{exp: 1}`: a reserved-field override. -/
def expOverrideClaims : JObj := .cons "exp".data (.num 1) .nil

/-- A benign custom-claims object `{messageId: "m-42"}`. -/
def okClaims : JObj := .cons "messageId".data (.str "m-42".data) .nil

/-- C1 counterexample: with customClaims `{exp: 1}` the token minted at
`iat = 0` is rejected as expired at `t = 900`, although `t ≤ iat + 900`
(the spread-last custom claims override the reserved `exp`). -/
theorem C1_roundTrip_cex :
    ∃ tok, generateToken toyCrypto secretK 0 expOverrideClaims = some tok ∧
      900 ≤ 0 / 1000 + 900 ∧
      (validateToken toyCrypto secretK 900 (some tok)).valid = false := by
  obtain ⟨eh, ep, es, hgen, hsplit, hne, hdecH, hdecP, hesEq⟩ :=
    generateToken_spec toyCrypto secretK 0 expOverrideClaims toyCrypto_bytes (by decide)
  refine ⟨_, hgen, by decide, ?_⟩
  rw [validateToken_parts_expired toyCrypto secretK 900 eh ep es
    (createPayload 0 expOverrideClaims) hsplit hdecH hdecP hesEq (by decide)]

/-- C1: token round-trip, amended.  For every Latin-1, duplicate-free
custom-claim set `C` that does not supply the reserved key `exp`, and every
time `t ≤ iat + 900`, the minted token validates under the same secret with
`valid: true`, the returned payload is exactly the minted payload, and
every custom field of `C` appears verbatim in it.  (The original claim,
quantified over all `C`, fails when `C` overrides `exp`: spread-last custom
claims replace the reserved expiry, see the counterexample.) -/
theorem C1_token_roundTrip (crypto : HostCrypto) (secretKey : Str)
    (nowMs t : Nat) (C : JObj)
    (hmac : ∀ k d, ∀ b ∈ crypto.hmacSHA256 k d, b < 256)
    (hlat : latin1O C = true)
    (hnd : C.keys.Nodup)
    (hexp : "exp".data ∉ C.keys)
    (ht : t ≤ nowMs / 1000 + 900) :
    ∃ tok, generateToken crypto secretKey nowMs C = some tok ∧
      validateToken crypto secretKey t (some tok) =
        ⟨true, some (.obj (createPayload nowMs C)), none⟩ ∧
      ∀ k v, (k, v) ∈ C.entries → (createPayload nowMs C).lookup k = some v := by
  obtain ⟨tok, hgen, hval⟩ :=
    validateToken_generateToken crypto secretKey nowMs t C hmac hlat hexp ht
  exact ⟨tok, hgen, hval, fun k v hm => createPayload_custom nowMs C hnd k v hm⟩

/-- C1 witness: the round trip at the concrete claims `{messageId: "m-42"}`,
minted at 0 and validated at t = 900. -/
theorem C1_token_roundTrip_witness :
    ∃ tok, generateToken toyCrypto secretK 0 okClaims = some tok ∧
      validateToken toyCrypto secretK 900 (some tok) =
        ⟨true, some (.obj (createPayload 0 okClaims)), none⟩ ∧
      ∀ k v, (k, v) ∈ okClaims.entries →
        (createPayload 0 okClaims).lookup k = some v :=
  C1_token_roundTrip toyCrypto secretK 0 900 okClaims toyCrypto_bytes
    (by decide) (by decide) (by decide) (by decide)

/-- Inversion of a successful `validateTokenE` run: acceptance pins the
token's three segments, their decodings, the header algorithm, the expiry
test and the recomputed signature. -/
theorem validateTokenE_ok_inv (crypto : HostCrypto) (secretKey : Str)
    (nowSec : Nat) (tok : Str) (payload : JVal)
    (h : validateTokenE crypto secretKey nowSec (some tok) = .ok payload) :
    ∃ eh ep es header,
      jsSplitDot tok = [eh, ep, es] ∧
      decodeSegment eh = .ok header ∧
      decodeSegment ep = .ok payload ∧
      jsGetE header "alg".data = .ok (some (.str algorithm)) ∧
      (∃ expv, jsGetE payload "exp".data = .ok expv ∧
        (jsTruthyOpt expv = true →
          jsLtNum (expv.getD .null) (nowSec : Int) = false)) ∧
      base64URLEncode (bytesToStr (createSignature crypto
        (eh ++ '.' :: ep) secretKey)) = some es := by
  simp only [validateTokenE] at h
  by_cases he : tok = []
  · rw [if_pos he] at h
    exact Except.noConfusion h
  rw [if_neg he] at h
  obtain ⟨eh, ep, es, hsplit⟩ : ∃ a b c, jsSplitDot tok = [a, b, c] := by
    rcases hpp : jsSplitDot tok with _ | ⟨a, _ | ⟨b, _ | ⟨c, _ | ⟨d, r⟩⟩⟩⟩ <;>
      rw [hpp] at h
    · rw [if_pos (by simp)] at h
      exact Except.noConfusion h
    · rw [if_pos (by simp)] at h
      exact Except.noConfusion h
    · rw [if_pos (by simp)] at h
      exact Except.noConfusion h
    · exact ⟨a, b, c, rfl⟩
    · rw [if_pos (by simp)] at h
      exact Except.noConfusion h
  rw [hsplit] at h
  rw [if_neg (by simp)] at h
  simp only [List.getD_cons_zero, List.getD_cons_succ] at h
  rcases hH : decodeSegment eh with e | header
  · simp only [hH] at h
    exact Except.noConfusion h
  simp only [hH] at h
  rcases hP : decodeSegment ep with e | pl
  · simp only [hP] at h
    exact Except.noConfusion h
  simp only [hP] at h
  rcases hA : jsGetE header "alg".data with e | algv
  · simp only [hA] at h
    exact Except.noConfusion h
  simp only [hA] at h
  by_cases halg : algv ≠ some (.str algorithm)
  · rw [if_pos halg] at h
    exact Except.noConfusion h
  rw [if_neg halg] at h
  push_neg at halg
  rcases hX : jsGetE pl "exp".data with e | expv
  · simp only [hX] at h
    exact Except.noConfusion h
  simp only [hX] at h
  by_cases hx : jsTruthyOpt expv ∧ jsLtNum (expv.getD .null) (nowSec : Int) = true
  · rw [if_pos hx] at h
    exact Except.noConfusion h
  rw [if_neg hx] at h
  rcases hS : base64URLEncode (bytesToStr (createSignature crypto
      (eh ++ '.' :: ep) secretKey)) with _ | esv
  · simp only [hS] at h
    exact Except.noConfusion h
  simp only [hS] at h
  by_cases hs : es ≠ esv
  · rw [if_pos hs] at h
    exact Except.noConfusion h
  rw [if_neg hs] at h
  push_neg at hs
  have hpl : pl = payload := by
    injection h
  subst hpl
  subst hs
  refine ⟨eh, ep, es, header, hsplit, hH, hP, by rw [halg] at hA; exact hA,
    ⟨expv, hX, ?_⟩, hS⟩
  intro ht
  rcases Bool.eq_false_or_eq_true (jsLtNum (expv.getD .null) (nowSec : Int)) with hf | hf
  · exact absurd ⟨ht, hf⟩ hx
  · exact hf

/-- A payload object with no `exp` field at all. -/
def noExpPayload : JObj :=
  .cons "iss".data (.str "whatsapp-gemini-extension".data) .nil

/-- C2 counterexample: a well-formed signed token whose payload carries no
`exp` field at all is accepted by `validateToken` at any time (here at
`nowSec = 1000000`): the expiry condition is skipped for falsy `exp`. -/
theorem C2_noExp_cex :
    ∃ tok payload, validateToken toyCrypto secretK 1000000 (some tok) =
        ⟨true, some payload, none⟩ ∧
      propGet payload "exp".data = none := by
  obtain ⟨eh, ep, es, hsplit, hne, hdecH, hdecP, hesEq⟩ :=
    signedParts_spec toyCrypto secretK noExpPayload toyCrypto_bytes (by decide)
  exact ⟨_, _, validateToken_parts_ok toyCrypto secretK 1000000 eh ep es noExpPayload
    hsplit hdecH hdecP hesEq (by decide), by decide⟩

/-- C2: validity invariant, amended.  A token accepted by `validateToken`
has three dot-separated segments whose header decodes with `alg = HS256`
and whose recomputed HMAC signature encodes to exactly the token's third
segment; the expiry condition holds only conditionally: WHEN the payload's
`exp` is present and truthy it is not in the past — but a payload with no
`exp` (or a falsy one) is accepted outright, refuting the original claim's
unconditional clause (b) (see the counterexample). -/
theorem C2_validity_invariant (crypto : HostCrypto) (secretKey : Str)
    (nowSec : Nat) (tok : Str)
    (h : (validateToken crypto secretKey nowSec (some tok)).valid = true) :
    ∃ eh ep es header payload,
      jsSplitDot tok = [eh, ep, es] ∧
      decodeSegment eh = .ok header ∧
      decodeSegment ep = .ok payload ∧
      jsGetE header "alg".data = .ok (some (.str algorithm)) ∧
      (∃ expv, jsGetE payload "exp".data = .ok expv ∧
        (jsTruthyOpt expv = true →
          jsLtNum (expv.getD .null) (nowSec : Int) = false)) ∧
      base64URLEncode (bytesToStr (createSignature crypto
        (eh ++ '.' :: ep) secretKey)) = some es := by
  unfold validateToken at h
  rcases hE : validateTokenE crypto secretKey nowSec (some tok) with e | payload
  · simp only [hE] at h
    exact Bool.noConfusion h
  obtain ⟨eh, ep, es, header, h1, h2, h3, h4, h5, h6⟩ :=
    validateTokenE_ok_inv crypto secretKey nowSec tok payload hE
  exact ⟨eh, ep, es, header, payload, h1, h2, h3, h4, h5, h6⟩

/-- C2 witness: the invariant read off a concrete accepted token (minted
from `{messageId: "m-42"}` at 0 and accepted at time 0). -/
theorem C2_validity_invariant_witness :
    ∃ tok, (validateToken toyCrypto secretK 0 (some tok)).valid = true ∧
      ∃ eh ep es header payload,
        jsSplitDot tok = [eh, ep, es] ∧
        decodeSegment eh = .ok header ∧
        decodeSegment ep = .ok payload ∧
        jsGetE header "alg".data = .ok (some (.str algorithm)) ∧
        (∃ expv, jsGetE payload "exp".data = .ok expv ∧
          (jsTruthyOpt expv = true →
            jsLtNum (expv.getD .null) ((0 : Nat) : Int) = false)) ∧
        base64URLEncode (bytesToStr (createSignature toyCrypto
          (eh ++ '.' :: ep) secretK)) = some es := by
  obtain ⟨tok, hgen, hval⟩ := validateToken_generateToken toyCrypto secretK 0 0
    okClaims toyCrypto_bytes (by decide) (by decide) (by decide)
  have hv : (validateToken toyCrypto secretK 0 (some tok)).valid = true := by
    rw [hval]
  exact ⟨tok, hv, C2_validity_invariant toyCrypto secretK 0 tok hv⟩

/-- The custom-claims object `{scope: 777}`: overrides the reserved scope. -/
def scopeOverrideClaims : JObj := .cons "scope".data (.num 777) .nil

/-- C3 counterexample: `generateToken` neither rejects the reserved-field
collision `{scope: 777}` nor keeps the fixed scope list: the caller's value
is signed into the token's payload verbatim, differing from the fixed
value the payload carries when no custom scope is supplied. -/
theorem C3_reserved_cex :
    ∃ eh ep es,
      generateToken toyCrypto secretK 0 scopeOverrideClaims =
        some ((eh ++ '.' :: ep) ++ '.' :: es) ∧
      decodeSegment ep = .ok (.obj (createPayload 0 scopeOverrideClaims)) ∧
      (createPayload 0 scopeOverrideClaims).lookup "scope".data =
        some (.num 777) ∧
      (createPayload 0 JObj.nil).lookup "scope".data ≠ some (.num 777) := by
  obtain ⟨eh, ep, es, hgen, hsplit, hne, hdecH, hdecP, hesEq⟩ :=
    generateToken_spec toyCrypto secretK 0 scopeOverrideClaims toyCrypto_bytes
      (by decide)
  exact ⟨eh, ep, es, hgen, hdecP, by decide, by decide⟩

/-- C3: reserved-claim handling, amended.  Custom claims are spread last
into the payload, so a caller-supplied field — reserved or not — appears
verbatim in the signed payload, silently replacing the fixed value (the
original claim's "rejected or deterministically keeps its fixed value" is
refuted by the counterexample); a reserved field keeps its fixed value only
when the caller does not supply it (`exp` shown), and collisions are never
rejected: minting succeeds for every Latin-1 claim set. -/
theorem C3_reserved_claims (nowMs : Nat) (C : JObj) (hnd : C.keys.Nodup) :
    (∀ k v, (k, v) ∈ C.entries → (createPayload nowMs C).lookup k = some v) ∧
    ("exp".data ∉ C.keys →
      (createPayload nowMs C).lookup "exp".data =
        some (.num (((nowMs + tokenExpiry) / 1000 : Nat) : Int))) ∧
    (∀ crypto : HostCrypto, ∀ secretKey : Str,
      (∀ k d, ∀ b ∈ crypto.hmacSHA256 k d, b < 256) → latin1O C = true →
      ∃ tok, generateToken crypto secretKey nowMs C = some tok) := by
  refine ⟨fun k v hm => createPayload_custom nowMs C hnd k v hm,
    fun hexp => createPayload_exp nowMs C hexp, ?_⟩
  intro crypto secretKey hmac hlat
  obtain ⟨eh, ep, es, hgen, -, -, -, -, -⟩ :=
    generateToken_spec crypto secretKey nowMs C hmac hlat
  exact ⟨_, hgen⟩

/-- C3 witness: the amended statement at the concrete claims `{scope: 777}`
and `nowMs = 0`. -/
theorem C3_reserved_claims_witness :
    (∀ k v, (k, v) ∈ scopeOverrideClaims.entries →
      (createPayload 0 scopeOverrideClaims).lookup k = some v) ∧
    ("exp".data ∉ scopeOverrideClaims.keys →
      (createPayload 0 scopeOverrideClaims).lookup "exp".data =
        some (.num (((0 + tokenExpiry) / 1000 : Nat) : Int))) ∧
    (∀ crypto : HostCrypto, ∀ secretKey : Str,
      (∀ k d, ∀ b ∈ crypto.hmacSHA256 k d, b < 256) →
      latin1O scopeOverrideClaims = true →
      ∃ tok, generateToken crypto secretKey 0 scopeOverrideClaims = some tok) :=
  C3_reserved_claims 0 scopeOverrideClaims (by decide)

/-- Normal form of `validateTokenE` once the token is nonempty and splits
into exactly three segments. -/
theorem validateTokenE_split3 (crypto : HostCrypto) (secretKey : Str) (nowSec : Nat)
    (tok eh ep es : Str) (hsplit : jsSplitDot tok = [eh, ep, es]) (hne : tok ≠ []) :
    validateTokenE crypto secretKey nowSec (some tok) =
      (match decodeSegment eh with
       | .error e => .error e
       | .ok header =>
         match decodeSegment ep with
         | .error e => .error e
         | .ok payload =>
           match jsGetE header "alg".data with
           | .error e => .error e
           | .ok algv =>
             if algv ≠ some (.str algorithm) then .error "Invalid algorithm".data
             else
               match jsGetE payload "exp".data with
               | .error e => .error e
               | .ok expv =>
                 if jsTruthyOpt expv ∧
                     jsLtNum (expv.getD .null) (nowSec : Int) = true then
                   .error "Token expired".data
                 else
                   match base64URLEncode (bytesToStr (createSignature crypto
                       (eh ++ '.' :: ep) secretKey)) with
                   | none => .error atobErrorMsg
                   | some expectedEncodedSignature =>
                     if es ≠ expectedEncodedSignature then
                       .error "Invalid signature".data
                     else .ok payload) := by
  simp only [validateTokenE, hsplit]
  rw [if_neg hne]
  simp

/-- A thrown validation error surfaces as `⁠{valid: false, error}`. -/
theorem validateToken_error_of (crypto : HostCrypto) (secretKey : Str)
    (nowSec : Nat) (token : Option Str) (m : Str)
    (h : validateTokenE crypto secretKey nowSec token = .error m) :
    validateToken crypto secretKey nowSec token = ⟨false, none, some m⟩ := by
  unfold validateToken
  rw [h]

/-- C4: verification failure classification and totality.  For every input
string, `validateToken` returns either a success record or a structured
failure record (never an uncaught throw, modelled by totality of the
result); the failure is `Invalid token structure` when the string does not
split into three parts, the `JSON.parse`/`atob` error when a segment fails
to decode, `Invalid algorithm` when `header.alg` is not HS256, `Token
expired` when the truthy `exp` is below the current time, and `Invalid
signature` when the recomputed signature differs; `validateBasicToken`
likewise always returns a structured result. -/
theorem C4_failure_classification (crypto : HostCrypto) (secretKey : Str)
    (nowSec : Nat) (tok : Str) :
    ((∃ p, validateToken crypto secretKey nowSec (some tok) = ⟨true, some p, none⟩) ∨
      (∃ m, validateToken crypto secretKey nowSec (some tok) =
        ⟨false, none, some m⟩)) ∧
    ((∃ p, validateBasicToken nowSec (some tok) =
        ⟨true, some p, none, some "Signature not verified in page context".data⟩) ∨
      (∃ m, validateBasicToken nowSec (some tok) = ⟨false, none, some m, none⟩)) ∧
    (tok ≠ [] → (jsSplitDot tok).length ≠ 3 →
      validateToken crypto secretKey nowSec (some tok) =
        ⟨false, none, some "Invalid token structure".data⟩) ∧
    (∀ eh ep es, jsSplitDot tok = [eh, ep, es] →
      (∀ m, decodeSegment eh = .error m →
        validateToken crypto secretKey nowSec (some tok) = ⟨false, none, some m⟩) ∧
      (∀ header m, decodeSegment eh = .ok header → decodeSegment ep = .error m →
        validateToken crypto secretKey nowSec (some tok) = ⟨false, none, some m⟩) ∧
      (∀ header payload, decodeSegment eh = .ok header →
        decodeSegment ep = .ok payload →
        (∀ a, jsGetE header "alg".data = .ok a → a ≠ some (.str algorithm) →
          validateToken crypto secretKey nowSec (some tok) =
            ⟨false, none, some "Invalid algorithm".data⟩) ∧
        (jsGetE header "alg".data = .ok (some (.str algorithm)) →
          ∀ expv, jsGetE payload "exp".data = .ok expv →
          jsTruthyOpt expv = true →
          jsLtNum (expv.getD .null) (nowSec : Int) = true →
          validateToken crypto secretKey nowSec (some tok) =
            ⟨false, none, some "Token expired".data⟩) ∧
        (jsGetE header "alg".data = .ok (some (.str algorithm)) →
          ∀ expv, jsGetE payload "exp".data = .ok expv →
          ¬(jsTruthyOpt expv ∧
            jsLtNum (expv.getD .null) (nowSec : Int) = true) →
          ∀ es2, base64URLEncode (bytesToStr (createSignature crypto
            (eh ++ '.' :: ep) secretKey)) = some es2 → es ≠ es2 →
          validateToken crypto secretKey nowSec (some tok) =
            ⟨false, none, some "Invalid signature".data⟩))) := by
  refine ⟨?_, ?_, ?_, ?_⟩
  · rcases hE : validateTokenE crypto secretKey nowSec (some tok) with m | p
    · exact Or.inr ⟨m, by unfold validateToken; rw [hE]⟩
    · exact Or.inl ⟨p, by unfold validateToken; rw [hE]⟩
  · rcases hE : validateBasicTokenE nowSec (some tok) with m | p
    · exact Or.inr ⟨m, by unfold validateBasicToken; rw [hE]⟩
    · exact Or.inl ⟨p, by unfold validateBasicToken; rw [hE]⟩
  · intro htok hlen
    apply validateToken_error_of
    simp only [validateTokenE]
    rw [if_neg htok, if_pos hlen]
  · intro eh ep es hsplit
    have hne : tok ≠ [] := by
      intro he
      rw [he] at hsplit
      simp [jsSplitDot] at hsplit
    have hnf := validateTokenE_split3 crypto secretKey nowSec tok eh ep es hsplit hne
    refine ⟨?_, ?_, ?_⟩
    · intro m hm
      apply validateToken_error_of
      rw [hnf]
      simp only [hm]
    · intro header m hh hm
      apply validateToken_error_of
      rw [hnf]
      simp only [hh, hm]
    · intro header payload hh hp
      refine ⟨?_, ?_, ?_⟩
      · intro a ha hane
        apply validateToken_error_of
        rw [hnf]
        simp only [hh, hp, ha]
        rw [if_pos hane]
      · intro halg expv hexp htr hlt
        apply validateToken_error_of
        rw [hnf]
        simp only [hh, hp, halg, hexp]
        rw [if_neg (by simp), if_pos ⟨htr, hlt⟩]
      · intro halg expv hexp hnx es2 hs2 hne2
        apply validateToken_error_of
        rw [hnf]
        simp only [hh, hp, halg, hexp, hs2]
        rw [if_neg (by simp), if_neg hnx, if_pos hne2]

/-- `needsRefresh` on an object payload with a nonzero numeric `exp` is
exactly the 120-second remaining-life test. -/
theorem needsRefresh_lookup (nowSec : Nat) (P : JObj) (e : Int)
    (hexp : P.lookup "exp".data = some (.num e)) (he : (e != 0) = true) :
    needsRefresh nowSec (some (.obj P)) = decide (e - (nowSec : Int) < 120) := by
  have hpg : propGet (.obj P) "exp".data = some (.num e) := hexp
  simp only [needsRefresh, hpg]
  simp [jsTruthy, jsToNumber, he]

/-- `getValidToken` with an empty storage slot goes straight to minting. -/
theorem getValidToken_noStored (crypto : HostCrypto) (secretKey : Str)
    (nowMs : Nat) (C : JObj) :
    getValidToken crypto secretKey none nowMs C =
      match generateToken crypto secretKey nowMs C with
      | some newToken => .ok (newToken, some newToken)
      | none => .error atobErrorMsg := rfl

/-- `getValidToken` with an empty stored string also mints. -/
theorem getValidToken_emptyStored (crypto : HostCrypto) (secretKey : Str)
    (nowMs : Nat) (C : JObj) :
    getValidToken crypto secretKey (some []) nowMs C =
      match generateToken crypto secretKey nowMs C with
      | some newToken => .ok (newToken, some newToken)
      | none => .error atobErrorMsg := by
  simp only [getValidToken]
  rw [if_neg (by simp)]

/-- `getValidToken` with a nonempty stored token: cached hit when the
stored token is valid and outside the refresh window, otherwise a mint. -/
theorem getValidToken_stored (crypto : HostCrypto) (secretKey : Str)
    (tok : Str) (nowMs : Nat) (C : JObj) (hne : tok ≠ []) :
    getValidToken crypto secretKey (some tok) nowMs C =
      if (validateToken crypto secretKey (nowMs / 1000) (some tok)).valid &&
          !(needsRefresh (nowMs / 1000)
            (validateToken crypto secretKey (nowMs / 1000) (some tok)).payload) then
        .ok (tok, some tok)
      else
        match generateToken crypto secretKey nowMs C with
        | some newToken => .ok (newToken, some newToken)
        | none => .error atobErrorMsg := by
  simp only [getValidToken]
  rw [if_pos hne]
  by_cases hc : ((validateToken crypto secretKey (nowMs / 1000) (some tok)).valid &&
      !(needsRefresh (nowMs / 1000)
        (validateToken crypto secretKey (nowMs / 1000) (some tok)).payload)) = true
  · rw [if_pos hc, if_pos hc]
  · rw [if_neg hc, if_neg hc]

/-- Calling `getValidToken` right after it stored a fresh mint of the same
claims at the same clock reading returns that very token again. -/
theorem getValidToken_after_mint (crypto : HostCrypto) (secretKey : Str)
    (nowMs : Nat) (C : JObj) (n : Str)
    (hg : generateToken crypto secretKey nowMs C = some n) :
    getValidToken crypto secretKey (some n) nowMs C = .ok (n, some n) := by
  by_cases hne : n = []
  · subst hne
    rw [getValidToken_emptyStored]
    simp only [hg]
  · rw [getValidToken_stored crypto secretKey n nowMs C hne]
    by_cases hc : ((validateToken crypto secretKey (nowMs / 1000) (some n)).valid &&
        !(needsRefresh (nowMs / 1000)
          (validateToken crypto secretKey (nowMs / 1000) (some n)).payload)) = true
    · rw [if_pos hc]
    · rw [if_neg hc]
      simp only [hg]

/-- Caching law 1 (idempotence at one clock reading): whatever token and
storage state one `getValidToken` call produces, an immediate second call
with the same claims and clock returns exactly the same token and state. -/
theorem getValidToken_idem (crypto : HostCrypto) (secretKey : Str)
    (stored : Option Str) (nowMs : Nat) (C : JObj) (tok : Str) (st' : Option Str)
    (h : getValidToken crypto secretKey stored nowMs C = .ok (tok, st')) :
    getValidToken crypto secretKey st' nowMs C = .ok (tok, st') := by
  rcases stored with _ | t
  · rw [getValidToken_noStored] at h
    rcases hg : generateToken crypto secretKey nowMs C with _ | n
    · rw [hg] at h
      exact Except.noConfusion h
    · simp only [hg] at h
      rw [Except.ok.injEq, Prod.mk.injEq] at h
      obtain ⟨h1, h2⟩ := h
      subst h1
      subst h2
      exact getValidToken_after_mint crypto secretKey nowMs C n hg
  · by_cases htne : t = []
    · subst htne
      rw [getValidToken_emptyStored] at h
      rcases hg : generateToken crypto secretKey nowMs C with _ | n
      · rw [hg] at h
        exact Except.noConfusion h
      · simp only [hg] at h
        rw [Except.ok.injEq, Prod.mk.injEq] at h
        obtain ⟨h1, h2⟩ := h
        subst h1
        subst h2
        exact getValidToken_after_mint crypto secretKey nowMs C n hg
    · rw [getValidToken_stored crypto secretKey t nowMs C htne] at h
      by_cases hc : ((validateToken crypto secretKey (nowMs / 1000) (some t)).valid &&
          !(needsRefresh (nowMs / 1000)
            (validateToken crypto secretKey (nowMs / 1000) (some t)).payload)) = true
      · rw [if_pos hc] at h
        rw [Except.ok.injEq, Prod.mk.injEq] at h
        obtain ⟨h1, h2⟩ := h
        subst h1
        subst h2
        rw [getValidToken_stored crypto secretKey t nowMs C htne, if_pos hc]
      · rw [if_neg hc] at h
        rcases hg : generateToken crypto secretKey nowMs C with _ | n
        · rw [hg] at h
          exact Except.noConfusion h
        · simp only [hg] at h
          rw [Except.ok.injEq, Prod.mk.injEq] at h
          obtain ⟨h1, h2⟩ := h
          subst h1
          subst h2
          exact getValidToken_after_mint crypto secretKey nowMs C n hg

/-- A fresh mint carries at least 120 seconds of remaining life (`exp`-free
claims): the segment facts and the life bound in one package. -/
theorem mint_life (crypto : HostCrypto) (secretKey : Str) (nowMs : Nat) (C : JObj)
    (hmac : ∀ k d, ∀ b ∈ crypto.hmacSHA256 k d, b < 256)
    (hlat : latin1O C = true) (hexpC : "exp".data ∉ C.keys) :
    ∃ eh ep es,
      generateToken crypto secretKey nowMs C =
        some ((eh ++ '.' :: ep) ++ '.' :: es) ∧
      decodeSegment ep = .ok (.obj (createPayload nowMs C)) ∧
      (createPayload nowMs C).lookup "exp".data =
        some (.num (((nowMs + tokenExpiry) / 1000 : Nat) : Int)) ∧
      ((nowMs / 1000 : Nat) : Int) + 120 ≤
        (((nowMs + tokenExpiry) / 1000 : Nat) : Int) := by
  obtain ⟨eh, ep, es, hgen, hsplit, hne, hdecH, hdecP, hesEq⟩ :=
    generateToken_spec crypto secretKey nowMs C hmac hlat
  have hT : tokenExpiry = 900000 := rfl
  refine ⟨eh, ep, es, hgen, hdecP, createPayload_exp nowMs C hexpC, ?_⟩
  have hb : nowMs / 1000 + 120 ≤ (nowMs + tokenExpiry) / 1000 := by omega
  exact_mod_cast hb

/-- Caching law 2 (refresh): when the stored token was minted (exp-free)
early enough that fewer than 120 seconds of life remain, but it has not yet
expired, `getValidToken` stores and returns a different token with a
strictly later expiry. -/
theorem getValidToken_refresh (crypto : HostCrypto) (secretKey : Str)
    (m0 nowMs : Nat) (C0 C1 : JObj) (tok0 : Str)
    (hmac : ∀ k d, ∀ b ∈ crypto.hmacSHA256 k d, b < 256)
    (hlat0 : latin1O C0 = true) (hexp0 : "exp".data ∉ C0.keys)
    (hlat1 : latin1O C1 = true) (hexp1 : "exp".data ∉ C1.keys)
    (hmint0 : generateToken crypto secretKey m0 C0 = some tok0)
    (hvalid : nowMs / 1000 ≤ m0 / 1000 + 900)
    (hwin : m0 / 1000 + 900 < nowMs / 1000 + 120) :
    ∃ tok1, getValidToken crypto secretKey (some tok0) nowMs C1 =
        .ok (tok1, some tok1) ∧
      generateToken crypto secretKey nowMs C1 = some tok1 ∧
      tok1 ≠ tok0 ∧
      (m0 + tokenExpiry) / 1000 < (nowMs + tokenExpiry) / 1000 := by
  have hT : tokenExpiry = 900000 := rfl
  have hval := (validateToken_generated crypto secretKey m0 (nowMs / 1000) C0 tok0
    hmac hlat0 hexp0 hmint0).1 hvalid
  obtain ⟨eh0, ep0, es0, hgen0, hsplit0, hne0, hdecH0, hdecP0, hesEq0⟩ :=
    generateToken_spec crypto secretKey m0 C0 hmac hlat0
  rw [hmint0, Option.some.injEq] at hgen0
  have hexpP : (createPayload m0 C0).lookup "exp".data =
      some (.num (((m0 + tokenExpiry) / 1000 : Nat) : Int)) :=
    createPayload_exp m0 C0 hexp0
  have hetr : ((((m0 + tokenExpiry) / 1000 : Nat) : Int) != 0) = true := by
    rw [bne_iff_ne]
    intro hc
    have hc' : (m0 + tokenExpiry) / 1000 = 0 := by exact_mod_cast hc
    omega
  have hRef : needsRefresh (nowMs / 1000) (some (.obj (createPayload m0 C0))) =
      true := by
    rw [needsRefresh_lookup (nowMs / 1000) _ _ hexpP hetr, decide_eq_true_eq]
    have h1 : (m0 + tokenExpiry) / 1000 < nowMs / 1000 + 120 := by omega
    push_cast
    omega
  have hne00 : tok0 ≠ [] := by
    rw [← hgen0] at hne0
    exact hne0
  rw [getValidToken_stored crypto secretKey tok0 nowMs C1 hne00]
  have hcond : ¬(((validateToken crypto secretKey (nowMs / 1000) (some tok0)).valid &&
      !(needsRefresh (nowMs / 1000)
        (validateToken crypto secretKey (nowMs / 1000) (some tok0)).payload)) = true) := by
    rw [hval]
    simp [hRef]
  rw [if_neg hcond]
  obtain ⟨eh1, ep1, es1, hgen1, hsplit1, hne1, hdecH1, hdecP1, hesEq1⟩ :=
    generateToken_spec crypto secretKey nowMs C1 hmac hlat1
  refine ⟨_, ?_, hgen1, ?_, by omega⟩
  · simp only [hgen1]
  · intro heq
    rw [hgen0] at heq
    have hs : [eh1, ep1, es1] = [eh0, ep0, es0] := by
      rw [← hsplit1, ← hsplit0, heq]
    rw [List.cons.injEq, List.cons.injEq, List.cons.injEq] at hs
    obtain ⟨-, hp, -, -⟩ := hs
    rw [hp, hdecP0, Except.ok.injEq] at hdecP1
    have hPP : createPayload nowMs C1 = createPayload m0 C0 := by
      injection hdecP1 with hobj
      exact hobj.symm
    have h1 := createPayload_exp nowMs C1 hexp1
    rw [hPP, hexpP, Option.some.injEq] at h1
    have h2 : ((m0 + tokenExpiry) / 1000 : Nat) = ((nowMs + tokenExpiry) / 1000 : Nat) := by
      have h3 : (((m0 + tokenExpiry) / 1000 : Nat) : Int) =
          (((nowMs + tokenExpiry) / 1000 : Nat) : Int) := by
        injection h1
      exact_mod_cast h3
    omega

/-- Caching law 3 (remaining life): for exp-free claim sets, and a storage
slot that is empty or holds an exp-free mint, the token `getValidToken`
returns always has at least 120 seconds of remaining life. -/
theorem getValidToken_life (crypto : HostCrypto) (secretKey : Str)
    (stored : Option Str) (nowMs : Nat) (C : JObj)
    (hmac : ∀ k d, ∀ b ∈ crypto.hmacSHA256 k d, b < 256)
    (hlat : latin1O C = true) (hexpC : "exp".data ∉ C.keys)
    (hstored : stored = none ∨ ∃ m0 C0 t0, stored = some t0 ∧ latin1O C0 = true ∧
      "exp".data ∉ C0.keys ∧ generateToken crypto secretKey m0 C0 = some t0) :
    ∃ tok st' eh ep es P e,
      getValidToken crypto secretKey stored nowMs C = .ok (tok, st') ∧
      tok = (eh ++ '.' :: ep) ++ '.' :: es ∧
      decodeSegment ep = .ok (.obj P) ∧
      P.lookup "exp".data = some (.num e) ∧
      ((nowMs / 1000 : Nat) : Int) + 120 ≤ e := by
  have hT : tokenExpiry = 900000 := rfl
  obtain ⟨eh1, ep1, es1, hgen1, hdecP1, hexpP1, hlife1⟩ :=
    mint_life crypto secretKey nowMs C hmac hlat hexpC
  rcases hstored with rfl | ⟨m0, C0, t0, rfl, hlat0, hexp0, hmint0⟩
  · refine ⟨(eh1 ++ '.' :: ep1) ++ '.' :: es1, some ((eh1 ++ '.' :: ep1) ++ '.' :: es1),
      eh1, ep1, es1, createPayload nowMs C, _, ?_, rfl, hdecP1, hexpP1, hlife1⟩
    rw [getValidToken_noStored]
    simp only [hgen1]
  · obtain ⟨eh0, ep0, es0, hgen0, hsplit0, hne0, hdecH0, hdecP0, hesEq0⟩ :=
      generateToken_spec crypto secretKey m0 C0 hmac hlat0
    rw [hmint0, Option.some.injEq] at hgen0
    have hne00 : t0 ≠ [] := by
      rw [← hgen0] at hne0
      exact hne0
    have hexpP0 : (createPayload m0 C0).lookup "exp".data =
        some (.num (((m0 + tokenExpiry) / 1000 : Nat) : Int)) :=
      createPayload_exp m0 C0 hexp0
    have hetr : ((((m0 + tokenExpiry) / 1000 : Nat) : Int) != 0) = true := by
      rw [bne_iff_ne]
      intro hc
      have hc' : (m0 + tokenExpiry) / 1000 = 0 := by exact_mod_cast hc
      omega
    rw [getValidToken_stored crypto secretKey t0 nowMs C hne00]
    by_cases hv : nowMs / 1000 ≤ m0 / 1000 + 900
    · have hval := (validateToken_generated crypto secretKey m0 (nowMs / 1000) C0 t0
        hmac hlat0 hexp0 hmint0).1 hv
      by_cases hfr : (((m0 + tokenExpiry) / 1000 : Nat) : Int) -
          ((nowMs / 1000 : Nat) : Int) < 120
      · have hRef : needsRefresh (nowMs / 1000)
            (some (.obj (createPayload m0 C0))) = true := by
          rw [needsRefresh_lookup (nowMs / 1000) _ _ hexpP0 hetr,
            decide_eq_true_eq]
          exact hfr
        have hcond : ¬(((validateToken crypto secretKey (nowMs / 1000)
            (some t0)).valid && !(needsRefresh (nowMs / 1000)
            (validateToken crypto secretKey (nowMs / 1000) (some t0)).payload))
            = true) := by
          rw [hval]
          simp [hRef]
        rw [if_neg hcond]
        refine ⟨(eh1 ++ '.' :: ep1) ++ '.' :: es1,
          some ((eh1 ++ '.' :: ep1) ++ '.' :: es1),
          eh1, ep1, es1, createPayload nowMs C, _, ?_, rfl, hdecP1, hexpP1, hlife1⟩
        simp only [hgen1]
      · have hRef : needsRefresh (nowMs / 1000)
            (some (.obj (createPayload m0 C0))) = false := by
          rw [needsRefresh_lookup (nowMs / 1000) _ _ hexpP0 hetr,
            decide_eq_false_iff_not]
          exact hfr
        have hcond : ((validateToken crypto secretKey (nowMs / 1000)
            (some t0)).valid && !(needsRefresh (nowMs / 1000)
            (validateToken crypto secretKey (nowMs / 1000) (some t0)).payload))
            = true := by
          rw [hval]
          simp [hRef]
        rw [if_pos hcond]
        refine ⟨t0, some t0, eh0, ep0, es0, createPayload m0 C0, _, rfl, hgen0,
          hdecP0, hexpP0, by omega⟩
    · have hval := (validateToken_generated crypto secretKey m0 (nowMs / 1000) C0 t0
        hmac hlat0 hexp0 hmint0).2 (by omega)
      have hcond : ¬(((validateToken crypto secretKey (nowMs / 1000)
          (some t0)).valid && !(needsRefresh (nowMs / 1000)
          (validateToken crypto secretKey (nowMs / 1000) (some t0)).payload))
          = true) := by
        rw [hval]
        simp
      rw [if_neg hcond]
      refine ⟨(eh1 ++ '.' :: ep1) ++ '.' :: es1,
        some ((eh1 ++ '.' :: ep1) ++ '.' :: es1),
        eh1, ep1, es1, createPayload nowMs C, _, ?_, rfl, hdecP1, hexpP1, hlife1⟩
      simp only [hgen1]

/-- C5 counterexample: with customClaims `{exp: 1}` the token freshly
minted, stored and returned by `getValidToken` at `nowMs = 0` already needs
a refresh as it is handed out — the caller receives a token with less than
120 seconds of remaining life, refuting the original unconditional
remaining-life guarantee. -/
theorem C5_life_cex :
    ∃ eh ep es,
      getValidToken toyCrypto secretK none 0 expOverrideClaims =
        .ok ((eh ++ '.' :: ep) ++ '.' :: es,
          some ((eh ++ '.' :: ep) ++ '.' :: es)) ∧
      decodeSegment ep = .ok (.obj (createPayload 0 expOverrideClaims)) ∧
      (createPayload 0 expOverrideClaims).lookup "exp".data = some (.num 1) ∧
      needsRefresh 0 (some (.obj (createPayload 0 expOverrideClaims))) = true := by
  obtain ⟨eh, ep, es, hgen, hsplit, hne, hdecH, hdecP, hesEq⟩ :=
    generateToken_spec toyCrypto secretK 0 expOverrideClaims toyCrypto_bytes
      (by decide)
  refine ⟨eh, ep, es, ?_, hdecP, by decide, by decide⟩
  rw [getValidToken_noStored]
  simp only [hgen]

/-- C5: getOrMint caching laws, amended.  (1) A second `getValidToken` call
at the same clock reading with the same claims returns the identical token
string and storage state.  (2) A stored exp-free mint inside the refresh
window (fewer than 120 seconds of life left but not yet expired) is
replaced: the call returns a different token with a strictly later expiry.
(3) For exp-free claim sets and a storage slot that is empty or holds an
exp-free mint, every returned token has at least 120 seconds of remaining
life.  (The original unconditional remaining-life guarantee fails for
claims that override `exp`: see the counterexample, where the returned
token needs a refresh the moment it is issued.) -/
theorem C5_getOrMint_caching :
    (∀ (crypto : HostCrypto) (secretKey : Str) (stored : Option Str) (nowMs : Nat)
        (C : JObj) (tok : Str) (st' : Option Str),
      getValidToken crypto secretKey stored nowMs C = .ok (tok, st') →
      getValidToken crypto secretKey st' nowMs C = .ok (tok, st')) ∧
    (∀ (crypto : HostCrypto) (secretKey : Str) (m0 nowMs : Nat) (C0 C1 : JObj)
        (tok0 : Str), (∀ k d, ∀ b ∈ crypto.hmacSHA256 k d, b < 256) →
      latin1O C0 = true → "exp".data ∉ C0.keys →
      latin1O C1 = true → "exp".data ∉ C1.keys →
      generateToken crypto secretKey m0 C0 = some tok0 →
      nowMs / 1000 ≤ m0 / 1000 + 900 →
      m0 / 1000 + 900 < nowMs / 1000 + 120 →
      ∃ tok1, getValidToken crypto secretKey (some tok0) nowMs C1 =
          .ok (tok1, some tok1) ∧
        generateToken crypto secretKey nowMs C1 = some tok1 ∧ tok1 ≠ tok0 ∧
        (m0 + tokenExpiry) / 1000 < (nowMs + tokenExpiry) / 1000) ∧
    (∀ (crypto : HostCrypto) (secretKey : Str) (stored : Option Str) (nowMs : Nat)
        (C : JObj), (∀ k d, ∀ b ∈ crypto.hmacSHA256 k d, b < 256) →
      latin1O C = true → "exp".data ∉ C.keys →
      (stored = none ∨ ∃ m0 C0 t0, stored = some t0 ∧ latin1O C0 = true ∧
        "exp".data ∉ C0.keys ∧ generateToken crypto secretKey m0 C0 = some t0) →
      ∃ tok st' eh ep es P e,
        getValidToken crypto secretKey stored nowMs C = .ok (tok, st') ∧
        tok = (eh ++ '.' :: ep) ++ '.' :: es ∧
        decodeSegment ep = .ok (.obj P) ∧
        P.lookup "exp".data = some (.num e) ∧
        ((nowMs / 1000 : Nat) : Int) + 120 ≤ e) :=
  ⟨getValidToken_idem,
   fun crypto secretKey m0 nowMs C0 C1 tok0 hmac hl0 he0 hl1 he1 hm hv hw =>
     getValidToken_refresh crypto secretKey m0 nowMs C0 C1 tok0 hmac hl0 he0 hl1
       he1 hm hv hw,
   fun crypto secretKey stored nowMs C hmac hl he hs =>
     getValidToken_life crypto secretKey stored nowMs C hmac hl he hs⟩

/-- Executor environment with no Store and no page JWT utilities. -/
def missingStoreEnv : ExecEnv :=
  ⟨false, 0, false, fun _ => none, false, .error [], .badResult⟩

/-- An audio (`ptt`) message record with all media fields present. -/
def audioRec : MsgRecord :=
  ⟨"ptt".data, some "dp".data, some "ef".data, some "fh".data, some "mk".data,
    some "audio/ogg; codecs=opus".data⟩

/-- Executor environment with the full download capability available;
`pj` switches the page JWT utilities, `now` the clock. -/
def readyEnv (pj : Bool) (now : Nat) : ExecEnv :=
  ⟨pj, now, true, fun _ => some audioRec, true, .ok "blob".data,
    .ok "data:audio/ogg;base64,QUFBQQ==".data⟩

/-- C6 counterexample: the terminal frame for a request that fails (here:
no Store) carries `error = undefined` (`some none`), not a human-readable
reason — the listener reads `.message` of a plain-string rejection, which
has no such property. -/
theorem C6_frame_cex :
    handleGetAudioData missingStoreEnv "m-1".data none =
      (⟨"m-1".data, none, some none⟩, false) := rfl

/-- C6: exactly one terminal frame per request, amended.  The listener
dispatches exactly one response frame (the model returns exactly one),
echoing the request's `messageId`, and the frame is either a success frame
with the audio payload and no error field, or a failure frame — but the
failure frame's `error` value is always `undefined` (`some none` in the
model), never a human-readable reason, because every rejection is a plain
string (or the reader's error event) and the listener dispatches
`error.message`, a property neither value has.  No failure path escapes
the frame (totality of the model). -/
theorem C6_single_frame (env : ExecEnv) (messageId : Str) (jwtToken : Option Str) :
    (handleGetAudioData env messageId jwtToken).1.messageId = messageId ∧
    ((∃ p, (handleGetAudioData env messageId jwtToken).1 =
        ⟨messageId, some p, none⟩) ∨
      (handleGetAudioData env messageId jwtToken).1 = ⟨messageId, none, some none⟩) := by
  unfold handleGetAudioData
  split
  · exact ⟨rfl, Or.inl ⟨_, rfl⟩⟩
  · rename_i rv heq
    exact ⟨rfl, Or.inr (by cases rv <;> rfl)⟩

/-- C7 counterexample: an expired token (minted at 0 with `exp = 900`,
used at `nowSec = 2000`) does not short-circuit the request when the page
JWT utilities are absent: validation is skipped wholesale and the
download/decrypt capability IS invoked. -/
theorem C7_expired_cex :
    ∃ tok, generateToken toyCrypto secretK 0 okClaims = some tok ∧
      validateBasicToken 2000 (some tok) =
        ⟨false, none, some "Token expired".data, none⟩ ∧
      (getWhatsAppAudioData (readyEnv false 2000) "m-1".data
        (some tok)).downloadInvoked = true := by
  obtain ⟨eh, ep, es, hgen, hsplit, hne, hdecH, hdecP, hesEq⟩ :=
    generateToken_spec toyCrypto secretK 0 okClaims toyCrypto_bytes (by decide)
  refine ⟨_, hgen, ?_, ?_⟩
  · unfold validateBasicToken
    rw [validateBasicTokenE_parts 2000 eh ep es (createPayload 0 okClaims)
      hsplit hdecH hdecP]
    rw [if_pos (by decide)]
  · simp only [getWhatsAppAudioData]
    rw [if_neg (fun hc => by simp [readyEnv] at hc)]
    rfl

/-- C7: expired-token short-circuit, amended: it holds only when the page
JWT utilities are loaded (and the token is truthy).  Under those
conditions a minted token whose nonzero `exp` is below the executor's
clock makes `getWhatsAppAudioData` return the authentication failure
(`JWT token validation failed: Token expired`) without invoking the
download/decrypt capability.  (Without the page utilities, validation is
skipped entirely and the download runs: see the counterexample.) -/
theorem C7_expired_short_circuit (env : ExecEnv) (messageId : Str)
    (crypto : HostCrypto) (secretKey : Str) (nowMs : Nat) (C : JObj) (tok : Str)
    (e : Int)
    (hPJ : env.pageJWTUtils = true)
    (hmac : ∀ k d, ∀ b ∈ crypto.hmacSHA256 k d, b < 256)
    (hlat : latin1O C = true)
    (htok : generateToken crypto secretKey nowMs C = some tok)
    (hgetExp : (createPayload nowMs C).lookup "exp".data = some (.num e))
    (htr : (e != 0) = true)
    (hlt : decide (e < (env.nowSec : Int)) = true) :
    getWhatsAppAudioData env messageId (some tok) =
      ⟨.error (.str ("JWT token validation failed: ".data ++
        "Token expired".data)), false⟩ := by
  obtain ⟨eh, ep, es, hgen, hsplit, hne, hdecH, hdecP, hesEq⟩ :=
    generateToken_spec crypto secretKey nowMs C hmac hlat
  rw [htok, Option.some.injEq] at hgen
  subst hgen
  have hc1 : jsTruthyOpt ((createPayload nowMs C).lookup "exp".data) = true := by
    rw [hgetExp]
    simpa [jsTruthyOpt, jsTruthy] using htr
  have hc2 : jsLtNum (((createPayload nowMs C).lookup "exp".data).getD .null)
      (env.nowSec : Int) = true := by
    rw [hgetExp]
    simpa [jsLtNum, jsToNumber] using hlt
  have hB : validateBasicToken env.nowSec (some ((eh ++ '.' :: ep) ++ '.' :: es)) =
      ⟨false, none, some "Token expired".data, none⟩ := by
    unfold validateBasicToken
    rw [validateBasicTokenE_parts env.nowSec eh ep es (createPayload nowMs C)
      hsplit hdecH hdecP]
    rw [if_pos ⟨hc1, hc2⟩]
  have hguard : jsTruthyStr (some ((eh ++ '.' :: ep) ++ '.' :: es)) = true := by
    simp [jsTruthyStr]
  simp only [getWhatsAppAudioData]
  rw [if_pos ⟨hguard, hPJ⟩]
  rw [hB]
  simp [hB]

/-- C7 witness: the short circuit at a concrete ready environment with the
page utilities loaded and the clock at 2000. -/
theorem C7_expired_short_circuit_witness :
    ∃ tok, generateToken toyCrypto secretK 0 okClaims = some tok ∧
      getWhatsAppAudioData (readyEnv true 2000) "m-1".data (some tok) =
        ⟨.error (.str ("JWT token validation failed: ".data ++
          "Token expired".data)), false⟩ := by
  obtain ⟨eh, ep, es, hgen, -, -, -, -, -⟩ :=
    generateToken_spec toyCrypto secretK 0 okClaims toyCrypto_bytes (by decide)
  exact ⟨_, hgen, C7_expired_short_circuit (readyEnv true 2000) "m-1".data toyCrypto
    secretK 0 okClaims _ 900 rfl toyCrypto_bytes (by decide) hgen (by decide)
    (by decide) (by decide)⟩

/-- The store phase never produces the authentication-failure string: all
of its rejection strings start with a letter other than `J`. -/
theorem storePhase_no_auth (env : ExecEnv) (messageId : Str) (s : Str)
    (hs : (storePhase env messageId).result = .error (.str s)) :
    ¬ ("JWT token validation failed: ".data <+: s) := by
  intro hpre
  have hJ : s.head? = some 'J' := by
    obtain ⟨t, ht⟩ := hpre
    rw [← ht]
    rfl
  unfold storePhase at hs
  split at hs
  · injection hs with h1
    injection h1 with h2
    rw [← h2] at hJ
    exact absurd hJ (by decide)
  · split at hs
    · injection hs with h1
      injection h1 with h2
      rw [← h2] at hJ
      rw [show (("Message not found in WhatsApp store with ID: ".data : Str) ++
        messageId).head? = some 'M' from rfl] at hJ
      exact absurd hJ (by decide)
    · split at hs
      · split at hs
        · split at hs
          · injection hs with h1
            injection h1 with h2
            rw [← h2] at hJ
            rw [show (("Error downloading or decrypting audio: ".data : Str) ++
              _).head? = some 'E' from rfl] at hJ
            exact absurd hJ (by decide)
          · split at hs
            · exact Except.noConfusion hs
            · injection hs with h1
              injection h1 with h2
              rw [← h2] at hJ
              exact absurd hJ (by decide)
            · injection hs with h1
              exact RejectVal.noConfusion h1
        · injection hs with h1
          injection h1 with h2
          rw [← h2] at hJ
          rw [show (("Required media properties or download function not found for audio message. Message ID: ".data : Str) ++
            messageId).head? = some 'R' from rfl] at hJ
          exact absurd hJ (by decide)
      · injection hs with h1
        injection h1 with h2
        rw [← h2] at hJ
        rw [show (("Message is not an audio message. Message ID: ".data : Str) ++
          messageId).head? = some 'M' from rfl] at hJ
        exact absurd hJ (by decide)

/-- C9: validation bypass when the validator is absent.  If the page JWT
utilities are not loaded, or the request carries no (truthy) token, the
executor performs no token validation at all: it proceeds directly with
the store phase (Store lookup and download), and no authentication error
is ever produced — every rejection string of a bypassed run lacks the
`JWT token validation failed: ` prefix. -/
theorem C9_validation_bypass (env : ExecEnv) (messageId : Str)
    (jwtToken : Option Str)
    (h : env.pageJWTUtils = false ∨ jsTruthyStr jwtToken = false) :
    getWhatsAppAudioData env messageId jwtToken = storePhase env messageId ∧
    ∀ s, (getWhatsAppAudioData env messageId jwtToken).result = .error (.str s) →
      ¬ ("JWT token validation failed: ".data <+: s) := by
  have hng : ¬(jsTruthyStr jwtToken = true ∧ env.pageJWTUtils = true) := by
    rcases h with h | h
    · intro hc
      rw [h] at hc
      exact Bool.noConfusion hc.2
    · intro hc
      rw [h] at hc
      exact Bool.noConfusion hc.1
  have hby : getWhatsAppAudioData env messageId jwtToken =
      storePhase env messageId := by
    unfold getWhatsAppAudioData
    rw [if_neg hng]
  refine ⟨hby, fun s hs => storePhase_no_auth env messageId s ?_⟩
  rw [hby] at hs
  exact hs

/-- C9 witness: the bypass at a concrete environment with the page JWT
utilities absent and a token supplied. -/
theorem C9_validation_bypass_witness :
    getWhatsAppAudioData (readyEnv false 0) "m-1".data (some "t".data) =
      storePhase (readyEnv false 0) "m-1".data ∧
    ∀ s, (getWhatsAppAudioData (readyEnv false 0) "m-1".data
        (some "t".data)).result = .error (.str s) →
      ¬ ("JWT token validation failed: ".data <+: s) :=
  C9_validation_bypass (readyEnv false 0) "m-1".data (some "t".data) (Or.inl rfl)

/-- C10: a cached token ignores the requested claims.  When the stored
token is valid and outside the refresh window at the call's clock reading,
`getValidToken` returns it unchanged for any two (arbitrarily different)
custom-claims arguments: the second caller receives the earlier request's
token, not one minted from its own claims. -/
theorem C10_cached_ignores_claims (crypto : HostCrypto) (secretKey : Str)
    (tok : Str) (nowMs : Nat) (C1 C2 : JObj)
    (hne : tok ≠ [])
    (hvalid : (validateToken crypto secretKey (nowMs / 1000) (some tok)).valid = true)
    (hfresh : needsRefresh (nowMs / 1000)
      (validateToken crypto secretKey (nowMs / 1000) (some tok)).payload = false) :
    getValidToken crypto secretKey (some tok) nowMs C1 = .ok (tok, some tok) ∧
    getValidToken crypto secretKey (some tok) nowMs C2 = .ok (tok, some tok) := by
  have hc : ((validateToken crypto secretKey (nowMs / 1000) (some tok)).valid &&
      !(needsRefresh (nowMs / 1000)
        (validateToken crypto secretKey (nowMs / 1000) (some tok)).payload)) = true := by
    rw [hvalid, hfresh]
    rfl
  exact ⟨by rw [getValidToken_stored crypto secretKey tok nowMs C1 hne, if_pos hc],
    by rw [getValidToken_stored crypto secretKey tok nowMs C2 hne, if_pos hc]⟩

/-- C10 witness: a fresh exp-free mint stored at `nowMs = 0` is returned
verbatim both to a caller asking for the same claims and to one asking for
entirely different claims (`{scope: 777}`). -/
theorem C10_cached_ignores_claims_witness :
    ∃ tok, generateToken toyCrypto secretK 0 okClaims = some tok ∧
      getValidToken toyCrypto secretK (some tok) 0 okClaims = .ok (tok, some tok) ∧
      getValidToken toyCrypto secretK (some tok) 0 scopeOverrideClaims =
        .ok (tok, some tok) := by
  obtain ⟨eh, ep, es, hgen, hsplit, hne', hdecH, hdecP, hesEq⟩ :=
    generateToken_spec toyCrypto secretK 0 okClaims toyCrypto_bytes (by decide)
  have hval := (validateToken_generated toyCrypto secretK 0 (0 / 1000) okClaims _
    toyCrypto_bytes (by decide) (by decide) hgen).1 (by decide)
  have h10 := C10_cached_ignores_claims toyCrypto secretK
    ((eh ++ '.' :: ep) ++ '.' :: es) 0 okClaims
    scopeOverrideClaims (by simp) (by rw [hval]) (by rw [hval]; decide)
  exact ⟨_, hgen, h10.1, h10.2⟩

end WUG
